import Mathlib

/-!
# DBexT: the signature-carving engine

A shallow embedding of the carving core of `DBexT.cpp`:

* `FILE_SIGNATURES` (lines 32-40), the catalog of start and end markers, and
  `file_types` (line 228), the declared order of the formats;
* `std_search`, the library routine `std::search` the program calls with the
  range `[data + first, data + size)`;
* `find_next_signature` (lines 151-166);
* `resolve_end`, the per-format chain of conditionals inside the loop of
  `extract_files_from_db` (lines 177-214);
* `carve_loop`, the `while (pos < mm.size)` loop (lines 173-218), and
  `extract_files_from_db`, the loop started at `pos = 0` with an empty
  `count_dict`.

Modelling conventions.

* The mapped file is a `List UInt8` (`mm.data`, `mm.size = data.length`).
* `size_t` offsets are natural numbers.  On the 64-bit targets of the program
  no offset computed here can wrap: every offset is at most
  `data.length + 2 ^ 32`.
* `std::set<std::string>` is the list of its elements in iteration order; the
  theorems hold for every list, so they do not depend on that order.
* `count_dict` is a function from format names to counts (absent keys read as
  `0`, as `operator[]` value-initialises them).  The counts are 32-bit `int`s:
  the increment is taken modulo `2 ^ 32` into `[-2 ^ 31, 2 ^ 31)`, the
  two's-complement result the program's targets give where C++ leaves signed
  overflow undefined.
* `save_file` is the external sink; each call is recorded as one `Cycle`
  in the result of the loop instead of being written to disk.
* The loop carries a fuel argument and returns `none` when the fuel runs out;
  `carve_loop_total` shows that `data.length + 1` is always enough.
-/

namespace DBexT

/-- One byte of the mapped file (`uint8_t`). -/
abbrev Byte := UInt8

/-- Line 21: `const size_t TIFF_MAX_SIZE = 100 * 1024`. -/
def TIFF_MAX_SIZE : Nat := 100 * 1024

/-- Lines 26-29: `struct Signature` with its `start` and `end` byte vectors. -/
structure Signature where
  start : List Byte
  end_ : List Byte
  deriving DecidableEq, Repr

/-- Lines 32-40: the table `FILE_SIGNATURES`, entry by entry. -/
def FILE_SIGNATURES : List (String × Signature) :=
  [ ("jpg", ⟨[0xFF, 0xD8], [0xFF, 0xD9]⟩),
    ("png", ⟨[0x89, 0x50, 0x4E, 0x47, 0x0D, 0x0A, 0x1A, 0x0A], [0x49, 0x45, 0x4E, 0x44]⟩),
    ("gif", ⟨[0x47, 0x49, 0x46, 0x38, 0x37, 0x61], [0x3B]⟩),
    ("bmp", ⟨[0x42, 0x4D], []⟩),
    ("tiff", ⟨[0x49, 0x49, 0x2A, 0x00], []⟩),
    ("pdf", ⟨[0x25, 0x50, 0x44, 0x46, 0x2D], [0x25, 0x25, 0x45, 0x4F, 0x46]⟩),
    ("zip", ⟨[0x50, 0x4B, 0x03, 0x04], []⟩) ]

/-- The call `FILE_SIGNATURES.find(fmt)`: `none` stands for the `end()` iterator. -/
def FILE_SIGNATURES_find (fmt : String) : Option Signature :=
  FILE_SIGNATURES.lookup fmt

/-- The call `FILE_SIGNATURES.at(fmt)`.  The program only calls it with the
literal keys `"jpg"`, `"png"`, `"gif"`, `"pdf"` and `"zip"`, all present, so the
default (where `at` would throw) is never reached. -/
def FILE_SIGNATURES_at (fmt : String) : Signature :=
  (FILE_SIGNATURES.lookup fmt).getD ⟨[], []⟩

/-- The scan of `std::search` over the remaining bytes `rest`, which begin at
absolute offset `i`: the first offset at which `pat` is a prefix of what
remains, and the offset of the end of the range when there is none. -/
def searchFrom (pat : List Byte) : List Byte → Nat → Nat
  | [], i => i
  | x :: xs, i => if pat.isPrefixOf (x :: xs) then i else searchFrom pat xs (i + 1)

/-- The call `std::search(data + first, data + size, pat.begin(), pat.end())`,
as an offset from `data`: the first position in `[first, size)` where `pat`
occurs entirely inside the range, `size` when there is none.  The program
only calls it with `first <= size`. -/
def std_search (data : List Byte) (first : Nat) (pat : List Byte) : Nat :=
  searchFrom pat (data.drop first) first

/-- Lines 155-163: the body of the `for (const auto& fmt : formats)` loop of
`find_next_signature`, acting on the pair `acc = (min_pos, found_fmt)`; a
format absent from the catalog is skipped (`continue`). -/
def find_next_signature_body (data : List Byte) (pos : Nat) (acc : Nat × String)
    (fmt : String) : Nat × String :=
  match FILE_SIGNATURES_find fmt with
  | none => acc
  | some sig =>
    let match_pos := std_search data pos sig.start
    if match_pos < acc.1 then (match_pos, fmt) else acc

/-- Lines 151-166: `find_next_signature(data, size, pos, formats)`; the result
`(size, "")` is the no-match result. -/
def find_next_signature (data : List Byte) (pos : Nat) (formats : List String) :
    Nat × String :=
  let size := data.length
  let acc := formats.foldl (find_next_signature_body data pos) (size, "")
  if acc.2 = "" ∨ acc.1 ≥ size then (size, "") else acc

/-- Line 195: `*reinterpret_cast<const uint32_t*>(mm.data + i)` on a
little-endian host; the program reads it only when `i + 4 <= size`. -/
def read_u32 (data : List Byte) (i : Nat) : Nat :=
  (data.getD i 0).toNat + 256 * (data.getD (i + 1) 0).toNat
    + 65536 * (data.getD (i + 2) 0).toNat + 16777216 * (data.getD (i + 3) 0).toNat

/-- Lines 177-214: the value of `end` after the chain of conditionals on
`fmt`, for a match at `start`. -/
def resolve_end (data : List Byte) (start : Nat) (fmt : String) : Nat :=
  let size := data.length
  if fmt = "jpg" then
    let end_it := std_search data start (FILE_SIGNATURES_at "jpg").end_
    if end_it ≠ size then end_it + 2 else start + 2
  else if fmt = "png" then
    let end_it := std_search data start (FILE_SIGNATURES_at "png").end_
    if end_it ≠ size then end_it + 12 else start + 12
  else if fmt = "gif" then
    let end_it := std_search data start (FILE_SIGNATURES_at "gif").end_
    if end_it ≠ size then end_it + 1 else start + 1
  else if fmt = "bmp" then
    if start + 6 ≤ size then
      let sz := read_u32 data (start + 2)
      if sz > 0 ∧ start + sz ≤ size then start + sz else start + 2
    else start + 1
  else if fmt = "tiff" then
    min (start + TIFF_MAX_SIZE) size
  else if fmt = "pdf" then
    let end_it := std_search data start (FILE_SIGNATURES_at "pdf").end_
    if end_it ≠ size then end_it + (FILE_SIGNATURES_at "pdf").end_.length else start + 6
  else if fmt = "zip" then
    let end_it := std_search data (start + 4) (FILE_SIGNATURES_at "zip").start
    if end_it ≠ size then end_it else size
  else start + 1

/-- One completed cycle of the loop: the cursor `pos` on entry, the match
`(start, fmt)` of line 174, the resolved `end`, and the count handed to
`save_file` on line 216 (the arguments of that call are `data + start`,
`end - start`, `fmt` and `count`). -/
structure Cycle where
  pos : Nat
  start : Nat
  fmt : String
  end_ : Nat
  count : Int
  deriving DecidableEq, Repr

/-- The 32-bit `int` that holds the arithmetic result `x`: `x` itself inside
`[-2 ^ 31, 2 ^ 31)`, and its two's-complement wrap-around outside. -/
def int_wrap (x : Int) : Int := (x + 2147483648) % 4294967296 - 2147483648

/-- Line 216: `count_dict[fmt]++` on the map of line 169, whose values are
`int`s. -/
def count_incr (count_dict : String → Int) (fmt : String) : String → Int :=
  fun k => if k = fmt then int_wrap (count_dict k + 1) else count_dict k

/-- Lines 173-218: the `while (pos < mm.size)` loop, from cursor `pos` with
counters `count_dict`; the result lists the completed cycles in order. -/
def carve_loop (data : List Byte) (formats : List String) :
    Nat → Nat → (String → Int) → Option (List Cycle)
  | 0, _, _ => none
  | fuel + 1, pos, count_dict =>
    if pos < data.length then
      let r := find_next_signature data pos formats
      if r.2 = "" then some []
      else
        let end_ := resolve_end data r.1 r.2
        (carve_loop data formats fuel end_ (count_incr count_dict r.2)).map
          (fun rest => ⟨pos, r.1, r.2, end_, count_dict r.2⟩ :: rest)
    else some []

/-- Lines 168-223: `extract_files_from_db` on the mapped bytes `data` with
`selected_formats = formats`. -/
def extract_files_from_db (data : List Byte) (formats : List String) :
    Option (List Cycle) :=
  carve_loop data formats (data.length + 1) 0 (fun _ => 0)

/-- The byte sequence `pat` occurs in `data` at offset `q`. -/
def OccursAt (data : List Byte) (q : Nat) (pat : List Byte) : Prop :=
  pat <+: data.drop q

instance (data : List Byte) (q : Nat) (pat : List Byte) : Decidable (OccursAt data q pat) := by
  unfold OccursAt; infer_instance

/-- Invariant of the `for` loop of `find_next_signature` once the formats
`done` have been visited: either nothing was found yet, or `acc` is a match
of one of them, and in both cases `acc.1` is at most every search result. -/
def FindInv (data : List Byte) (pos : Nat) (done : List String) (acc : Nat × String) : Prop :=
  ((acc.1 = data.length ∧ acc.2 = "") ∨
    (acc.1 < data.length ∧ acc.2 ∈ done ∧
      ∃ sig, FILE_SIGNATURES_find acc.2 = some sig ∧ acc.1 = std_search data pos sig.start)) ∧
  (∀ g ∈ done, ∀ sg, FILE_SIGNATURES_find g = some sg → acc.1 ≤ std_search data pos sg.start)

/-- The runs of the loop of `extract_files_from_db`, as a relation: from
cursor `pos` with counters `cd` the loop completes the cycles `objs`.  It
leaves when `pos < size` fails (`exit`) or when the finder reports no match
(`no_match`); otherwise it completes one cycle and goes on from the resolved
end with the counter of the matched format incremented (`cycle`). -/
inductive Run (data : List Byte) (formats : List String) :
    Nat → (String → Int) → List Cycle → Prop
  | exit (pos : Nat) (cd : String → Int) : ¬ pos < data.length → Run data formats pos cd []
  | no_match (pos : Nat) (cd : String → Int) : pos < data.length →
      (find_next_signature data pos formats).2 = "" → Run data formats pos cd []
  | cycle (pos : Nat) (cd : String → Int) (rest : List Cycle) : pos < data.length →
      (find_next_signature data pos formats).2 ≠ "" →
      Run data formats
        (resolve_end data (find_next_signature data pos formats).1
          (find_next_signature data pos formats).2)
        (count_incr cd (find_next_signature data pos formats).2) rest →
      Run data formats pos cd
        (⟨pos, (find_next_signature data pos formats).1,
          (find_next_signature data pos formats).2,
          resolve_end data (find_next_signature data pos formats).1
            (find_next_signature data pos formats).2,
          cd (find_next_signature data pos formats).2⟩ :: rest)

/-- A five-byte jpg object: start marker, one byte, end marker. -/
def jpg_sample : List Byte := [0xFF, 0xD8, 0x41, 0xFF, 0xD9]

/-- A twenty-byte png object: the start marker, a four-byte length field, the
end marker `IEND` and its four-byte CRC. -/
def png_sample : List Byte :=
  [0x89, 0x50, 0x4E, 0x47, 0x0D, 0x0A, 0x1A, 0x0A, 0x00, 0x00, 0x00, 0x00,
    0x49, 0x45, 0x4E, 0x44, 0xAE, 0x42, 0x60, 0x82]

/-- A tiff start marker followed by 102398 zero bytes. -/
def tiff_sample : List Byte := [0x49, 0x49, 0x2A, 0x00] ++ List.replicate 102398 0

/-- Line 228: the vector `file_types` of `main`, the declared order of the
formats. -/
def file_types : List String := ["jpg", "png", "gif", "bmp", "tiff", "pdf", "zip"]

/-- The place of a format name in `file_types` (`7` for a name outside it). -/
def catalog_rank (fmt : String) : Nat := file_types.indexOf fmt

/-- The buffer made of `n` zip start markers back to back (`4 * n` bytes). -/
def zip_markers : Nat → List Byte
  | 0 => []
  | n + 1 => [0x50, 0x4B, 0x03, 0x04] ++ zip_markers n

/-! ## The search routine -/

theorem searchFrom_spec (pat : List Byte) :
    ∀ (rest : List Byte) (i : Nat),
      i ≤ searchFrom pat rest i ∧ searchFrom pat rest i ≤ i + rest.length ∧
      (searchFrom pat rest i < i + rest.length →
        pat <+: rest.drop (searchFrom pat rest i - i)) ∧
      (∀ k, i + k < searchFrom pat rest i → ¬ pat <+: rest.drop k) := by
  intro rest
  induction rest with
  | nil => intro i; simp [searchFrom]
  | cons x xs ih =>
    intro i
    by_cases hp : pat.isPrefixOf (x :: xs) = true
    · have hr : searchFrom pat (x :: xs) i = i := by simp [searchFrom, hp]
      rw [hr]
      refine ⟨le_refl _, by omega, ?_, ?_⟩
      · intro _
        simpa using ( List.isPrefixOf_iff_prefix.mp hp)
      · intro k hk; omega
    · have hr : searchFrom pat (x :: xs) i = searchFrom pat xs (i + 1) := by
        simp [searchFrom, hp]
      rw [hr]
      obtain ⟨h1, h2, h3, h4⟩ := ih (i + 1)
      refine ⟨by omega, by simp only [List.length_cons]; omega, ?_, ?_⟩
      · intro hlt
        have hlt2 : searchFrom pat xs (i + 1) < i + 1 + xs.length := by
          simp only [List.length_cons] at hlt; omega
        have h := h3 hlt2
        have e : searchFrom pat xs (i + 1) - i = (searchFrom pat xs (i + 1) - (i + 1)) + 1 := by
          omega
        rw [e, List.drop_succ_cons]
        exact h
      · intro k hk
        cases k with
        | zero =>
          intro hpre
          exact hp ( List.isPrefixOf_iff_prefix.mpr (by simpa using hpre))
        | succ k =>
          rw [List.drop_succ_cons]
          exact h4 k (by omega)

theorem OccursAt_length {data : List Byte} {q : Nat} {pat : List Byte}
    (h : OccursAt data q pat) (hne : pat ≠ []) :
    q + pat.length ≤ data.length ∧ q < data.length := by
  have hl := h.length_le
  rw [List.length_drop] at hl
  have hpos : 0 < pat.length := List.length_pos.mpr hne
  omega

theorem std_search_ge (data : List Byte) (first : Nat) (pat : List Byte) :
    first ≤ std_search data first pat :=
  (searchFrom_spec pat (data.drop first) first).1

theorem std_search_le (data : List Byte) (first : Nat) (pat : List Byte)
    (hf : first ≤ data.length) : std_search data first pat ≤ data.length := by
  have h := (searchFrom_spec pat (data.drop first) first).2.1
  rw [List.length_drop] at h
  unfold std_search
  omega

theorem std_search_occurs (data : List Byte) (first : Nat) (pat : List Byte)
    (hlt : std_search data first pat < data.length) :
    OccursAt data (std_search data first pat) pat := by
  have hge := std_search_ge data first pat
  have h := (searchFrom_spec pat (data.drop first) first).2.2.1
  rw [List.length_drop] at h
  have h' := h (by unfold std_search at hlt hge; omega)
  rw [List.drop_drop] at h'
  unfold OccursAt
  have e : first + (searchFrom pat (data.drop first) first - first)
      = std_search data first pat := by
    unfold std_search at hge ⊢; omega
  rw [← e]
  exact h'

theorem std_search_min (data : List Byte) (first : Nat) (pat : List Byte) (q : Nat)
    (hq : first ≤ q) (hlt : q < std_search data first pat) : ¬ OccursAt data q pat := by
  have h := (searchFrom_spec pat (data.drop first) first).2.2.2 (q - first)
    (by unfold std_search at hlt; omega)
  rw [List.drop_drop] at h
  unfold OccursAt
  have e : first + (q - first) = q := by omega
  rw [e] at h
  exact h

/-- A search that comes back with `size` found nothing at or after `first`. -/
theorem std_search_none (data : List Byte) (first : Nat) (pat : List Byte)
    (hne : pat ≠ []) (hr : data.length ≤ std_search data first pat) (q : Nat)
    (hq : first ≤ q) : ¬ OccursAt data q pat := by
  intro ho
  have hl := (OccursAt_length ho hne).2
  exact std_search_min data first pat q hq (by omega) ho

/-- The search returns the first occurrence at or after `first`. -/
theorem std_search_eq_of_first (data : List Byte) (first : Nat) (pat : List Byte) (m : Nat)
    (hne : pat ≠ []) (hf : first ≤ m) (ho : OccursAt data m pat)
    (hmin : ∀ q, first ≤ q → q < m → ¬ OccursAt data q pat) :
    std_search data first pat = m := by
  have hm := (OccursAt_length ho hne).2
  rcases Nat.lt_trichotomy (std_search data first pat) m with h | h | h
  · exact absurd (std_search_occurs data first pat (by omega))
      (hmin _ (std_search_ge data first pat) h)
  · exact h
  · exact absurd ho (std_search_min data first pat m hf h)

/-! ## The catalog -/

theorem FILE_SIGNATURES_find_mem (f : String) (sig : Signature)
    (h : FILE_SIGNATURES_find f = some sig) : (f, sig) ∈ FILE_SIGNATURES := by
  unfold FILE_SIGNATURES_find at h
  generalize FILE_SIGNATURES = tbl at h ⊢
  induction tbl with
  | nil => simp [List.lookup] at h
  | cons e es ih =>
    obtain ⟨k, v⟩ := e
    by_cases hk : f = k
    · subst hk
      simp [List.lookup] at h
      subst h
      exact List.mem_cons_self _ _
    · have hb : (f == k) = false := by simpa using hk
      simp only [List.lookup, hb] at h
      exact List.mem_cons_of_mem _ (ih h)

/-- Every catalog entry has a non-empty start marker and a non-empty name. -/
theorem FILE_SIGNATURES_start_ne_nil (f : String) (sig : Signature)
    (h : FILE_SIGNATURES_find f = some sig) : sig.start ≠ [] ∧ f ≠ "" := by
  have hm := FILE_SIGNATURES_find_mem f sig h
  simp only [FILE_SIGNATURES, List.mem_cons, Prod.mk.injEq, List.mem_singleton,
    List.not_mem_nil, or_false] at hm
  rcases hm with ⟨rfl, rfl⟩ | ⟨rfl, rfl⟩ | ⟨rfl, rfl⟩ | ⟨rfl, rfl⟩ | ⟨rfl, rfl⟩ |
    ⟨rfl, rfl⟩ | ⟨rfl, rfl⟩ <;> exact ⟨by simp, by decide⟩

/-! ## The finder -/

theorem FindInv_step (data : List Byte) (pos : Nat) (done : List String) (acc : Nat × String)
    (fmt : String) (h : FindInv data pos done acc) :
    FindInv data pos (done ++ [fmt]) (find_next_signature_body data pos acc fmt) := by
  obtain ⟨h1, h2⟩ := h
  have hle : acc.1 ≤ data.length := by rcases h1 with h | h <;> omega
  unfold find_next_signature_body
  cases hf : FILE_SIGNATURES_find fmt with
  | none =>
    refine ⟨?_, ?_⟩
    · rcases h1 with h | ⟨ha, hb, hc⟩
      · exact Or.inl h
      · exact Or.inr ⟨ha, List.mem_append_left _ hb, hc⟩
    · intro g hg sg hsg
      rcases List.mem_append.mp hg with hg | hg
      · exact h2 g hg sg hsg
      · rw [List.mem_singleton] at hg
        subst hg
        rw [hf] at hsg
        exact absurd hsg (by simp)
  | some sig =>
    by_cases hlt : std_search data pos sig.start < acc.1
    · simp only [hlt, if_true]
      refine ⟨Or.inr ⟨by simp only; omega, by simp, sig, hf, rfl⟩, ?_⟩
      intro g hg sg hsg
      rcases List.mem_append.mp hg with hg | hg
      · have := h2 g hg sg hsg
        simp only
        omega
      · rw [List.mem_singleton] at hg
        subst hg
        rw [hf] at hsg
        cases hsg
        exact le_refl _
    · simp only [hlt, if_false]
      refine ⟨?_, ?_⟩
      · rcases h1 with h | ⟨ha, hb, hc⟩
        · exact Or.inl h
        · exact Or.inr ⟨ha, List.mem_append_left _ hb, hc⟩
      · intro g hg sg hsg
        rcases List.mem_append.mp hg with hg | hg
        · exact h2 g hg sg hsg
        · rw [List.mem_singleton] at hg
          subst hg
          rw [hf] at hsg
          cases hsg
          omega

theorem FindInv_foldl (data : List Byte) (pos : Nat) :
    ∀ (rest done : List String) (acc : Nat × String), FindInv data pos done acc →
      FindInv data pos (done ++ rest) (rest.foldl (find_next_signature_body data pos) acc) := by
  intro rest
  induction rest with
  | nil => intro done acc h; simpa using h
  | cons f fs ih =>
    intro done acc h
    have h' := ih (done ++ [f]) _ (FindInv_step data pos done acc f h)
    simpa [List.append_assoc] using h'

/-- What `find_next_signature` returns: the no-match result when every
selected catalog format's search came back with `size`, and otherwise a
selected catalog format together with its search result, which is the least
of all the search results. -/
theorem find_next_signature_spec (data : List Byte) (pos : Nat) (formats : List String) :
    (find_next_signature data pos formats = (data.length, "") ∧
      ∀ g ∈ formats, ∀ sg, FILE_SIGNATURES_find g = some sg →
        data.length ≤ std_search data pos sg.start) ∨
    ((find_next_signature data pos formats).1 < data.length ∧
      (find_next_signature data pos formats).2 ≠ "" ∧
      (find_next_signature data pos formats).2 ∈ formats ∧
      ∃ sig, FILE_SIGNATURES_find (find_next_signature data pos formats).2 = some sig ∧
        (find_next_signature data pos formats).1 = std_search data pos sig.start ∧
        ∀ g ∈ formats, ∀ sg, FILE_SIGNATURES_find g = some sg →
          (find_next_signature data pos formats).1 ≤ std_search data pos sg.start) := by
  have hinit : FindInv data pos [] (data.length, "") :=
    ⟨Or.inl ⟨rfl, rfl⟩, by intro g hg; simp at hg⟩
  have h := FindInv_foldl data pos formats [] _ hinit
  rw [List.nil_append] at h
  obtain ⟨h1, h2⟩ := h
  unfold find_next_signature
  simp only
  generalize formats.foldl (find_next_signature_body data pos) (data.length, "") = acc at h1 h2
  rcases h1 with ⟨ha, hb⟩ | ⟨ha, hb, sig, hs, he⟩
  · left
    refine ⟨by simp [hb], ?_⟩
    intro g hg sg hsg
    have := h2 g hg sg hsg
    omega
  · right
    have hne : acc.2 ≠ "" := (FILE_SIGNATURES_start_ne_nil _ _ hs).2
    have hcond : ¬ (acc.2 = "" ∨ acc.1 ≥ data.length) := by
      intro h; rcases h with h | h
      · exact hne h
      · omega
    simp only [hcond, if_false]
    exact ⟨ha, hne, hb, sig, hs, he, h2⟩

/-! ## The boundary resolver -/

/-- Every rule of the resolver ends after the match, provided the match lies
inside the buffer. -/
theorem resolve_end_gt (data : List Byte) (start : Nat) (fmt : String)
    (hs : start < data.length) : start < resolve_end data start fmt := by
  have hjpg := std_search_ge data start (FILE_SIGNATURES_at "jpg").end_
  have hpng := std_search_ge data start (FILE_SIGNATURES_at "png").end_
  have hgif := std_search_ge data start (FILE_SIGNATURES_at "gif").end_
  have hpdf := std_search_ge data start (FILE_SIGNATURES_at "pdf").end_
  have hzip := std_search_ge data (start + 4) (FILE_SIGNATURES_at "zip").start
  have hlen : (FILE_SIGNATURES_at "pdf").end_.length = 5 := by decide
  have htiff : TIFF_MAX_SIZE = 102400 := by decide
  unfold resolve_end
  simp only
  split_ifs <;> omega

/-! ## The carving loop -/

theorem carve_loop_run (data : List Byte) (formats : List String) :
    ∀ (fuel pos : Nat) (cd : String → Int) (objs : List Cycle),
      carve_loop data formats fuel pos cd = some objs → Run data formats pos cd objs := by
  intro fuel
  induction fuel with
  | zero => intro pos cd objs h; simp [carve_loop] at h
  | succ n ih =>
    intro pos cd objs h
    unfold carve_loop at h
    by_cases hp : pos < data.length
    · simp only [hp, if_true] at h
      by_cases hf : (find_next_signature data pos formats).2 = ""
      · simp only [hf, if_true] at h
        cases h
        exact Run.no_match pos cd hp hf
      · simp only [hf, if_false, Option.map_eq_some'] at h
        obtain ⟨rest, hrest, he⟩ := h
        subst he
        exact Run.cycle pos cd rest hp hf (ih _ _ _ hrest)
    · simp only [hp, if_false] at h
      cases h
      exact Run.exit pos cd hp

/-- The finder's match lies at or after the cursor and inside the buffer. -/
theorem find_next_signature_bounds (data : List Byte) (pos : Nat) (formats : List String)
    (hne : (find_next_signature data pos formats).2 ≠ "") :
    pos ≤ (find_next_signature data pos formats).1 ∧
      (find_next_signature data pos formats).1 < data.length := by
  rcases find_next_signature_spec data pos formats with ⟨he, _⟩ | ⟨hlt, _, _, sig, _, hp, _⟩
  · rw [he] at hne; exact absurd rfl hne
  · exact ⟨by rw [hp]; exact std_search_ge data pos sig.start, hlt⟩

/-- With more fuel than bytes left the loop runs to completion. -/
theorem carve_loop_total (data : List Byte) (formats : List String) :
    ∀ (fuel pos : Nat) (cd : String → Int), data.length - pos < fuel →
      ∃ objs, carve_loop data formats fuel pos cd = some objs := by
  intro fuel
  induction fuel with
  | zero => intro pos cd h; omega
  | succ n ih =>
    intro pos cd h
    unfold carve_loop
    by_cases hp : pos < data.length
    · simp only [hp, if_true]
      by_cases hf : (find_next_signature data pos formats).2 = ""
      · exact ⟨[], by simp [hf]⟩
      · simp only [hf, if_false]
        have hb := find_next_signature_bounds data pos formats hf
        have hg := resolve_end_gt data _ (find_next_signature data pos formats).2 hb.2
        obtain ⟨rest, hrest⟩ := ih (resolve_end data (find_next_signature data pos formats).1
          (find_next_signature data pos formats).2)
          (count_incr cd (find_next_signature data pos formats).2) (by omega)
        exact ⟨_, by rw [hrest]; rfl⟩
    · exact ⟨[], by simp [hp]⟩

/-- Each completed cycle starts inside the buffer, records the finder's match
at its cursor, and ends where the resolver says. -/
theorem Run_cycle_facts {data : List Byte} {formats : List String} {pos : Nat}
    {cd : String → Int} {objs : List Cycle} (h : Run data formats pos cd objs) :
    ∀ c ∈ objs, c.pos < data.length ∧
      find_next_signature data c.pos formats = (c.start, c.fmt) ∧ c.fmt ≠ "" ∧
      c.end_ = resolve_end data c.start c.fmt := by
  induction h with
  | exit pos cd _ => intro c hc; simp at hc
  | no_match pos cd _ _ => intro c hc; simp at hc
  | cycle pos cd rest hp hf _ ih =>
    intro c hc
    rcases List.mem_cons.mp hc with rfl | hc
    · exact ⟨hp, rfl, hf, rfl⟩
    · exact ih c hc

/-- The first cycle of a run starts from the run's cursor. -/
theorem Run_head {data : List Byte} {formats : List String} {pos : Nat}
    {cd : String → Int} {objs : List Cycle} (h : Run data formats pos cd objs) :
    ∀ c ∈ objs.head?, c.pos = pos := by
  cases h <;> simp

/-- Each cycle starts from the cursor the previous one left. -/
theorem Run_chain {data : List Byte} {formats : List String} {pos : Nat}
    {cd : String → Int} {objs : List Cycle} (h : Run data formats pos cd objs) :
    List.Chain' (fun a b => b.pos = a.end_) objs := by
  induction h with
  | exit pos cd _ => exact List.chain'_nil
  | no_match pos cd _ _ => exact List.chain'_nil
  | cycle pos cd rest _ _ hrest ih =>
    rw [List.chain'_cons']
    exact ⟨fun b hb => Run_head hrest b hb, ih⟩

/-- A cycle's match is at or after its cursor and before its end. -/
theorem cycle_order {data : List Byte} {formats : List String} {c : Cycle}
    (h1 : find_next_signature data c.pos formats = (c.start, c.fmt)) (h2 : c.fmt ≠ "")
    (h3 : c.end_ = resolve_end data c.start c.fmt) :
    c.pos ≤ c.start ∧ c.start < data.length ∧ c.start < c.end_ := by
  have hb := find_next_signature_bounds data c.pos formats (by rw [h1]; exact h2)
  rw [h1] at hb
  exact ⟨hb.1, hb.2, by rw [h3]; exact resolve_end_gt data c.start c.fmt hb.2⟩

/-- A run from `pos` completes at most as many cycles as bytes are left. -/
theorem Run_length {data : List Byte} {formats : List String} {pos : Nat}
    {cd : String → Int} {objs : List Cycle} (h : Run data formats pos cd objs) :
    objs.length ≤ data.length - pos := by
  induction h with
  | exit pos cd _ => simp
  | no_match pos cd _ _ => simp
  | cycle pos cd rest hp hf _ ih =>
    have hb := find_next_signature_bounds data pos formats hf
    have hg := resolve_end_gt data _ (find_next_signature data pos formats).2 hb.2
    simp only [List.length_cons]
    omega


/-- Incrementing a wrapped counter is wrapping the incremented value. -/
theorem int_wrap_succ (n : Int) : int_wrap (int_wrap n + 1) = int_wrap (n + 1) := by
  unfold int_wrap
  omega

/-- Inside the range of a 32-bit `int` nothing wraps. -/
theorem int_wrap_of_lt (i : Nat) (h : i < 2147483648) : int_wrap (i : Int) = (i : Int) := by
  unfold int_wrap
  omega

/-- The counts handed to `save_file` for one format count up, as 32-bit `int`s,
from the counter the run started with. -/
theorem Run_counts {data : List Byte} {formats : List String} {pos : Nat}
    {cd : String → Int} {objs : List Cycle} (h : Run data formats pos cd objs) (f : String) :
    ∀ n : Int, cd f = int_wrap n →
      (objs.filter (fun c => c.fmt = f)).map (fun c => c.count) =
        (List.range (objs.filter (fun c => c.fmt = f)).length).map
          (fun (i : Nat) => int_wrap (n + (i : Int))) := by
  induction h with
  | exit pos cd _ => intro n _; simp
  | no_match pos cd _ _ => intro n _; simp
  | cycle pos cd rest _ _ _ ih =>
    intro n hn
    by_cases hf : (find_next_signature data pos formats).2 = f
    · have hc : count_incr cd (find_next_signature data pos formats).2 f = int_wrap (n + 1) := by
        simp only [count_incr, hf, if_true, hn]
        exact int_wrap_succ n
      have ih2 := ih (n + 1) hc
      simp only [hf, decide_True, List.filter_cons_of_pos, List.map_cons, List.length_cons,
        List.range_succ_eq_map, ih2, List.map_map]
      refine congrArg₂ _ ?_ (List.map_congr_left fun i _ => ?_)
      · rw [hn]; simp
      · simp only [Function.comp]
        congr 1
        push_cast
        omega
    · have hc : count_incr cd (find_next_signature data pos formats).2 f = cd f := by
        simp [count_incr, Ne.symm hf]
      have ih2 := ih n (by rw [hc]; exact hn)
      simpa [hf] using ih2

/-- The run from the start of the buffer completes and is a run of the loop. -/
theorem extract_files_from_db_run (data : List Byte) (formats : List String) :
    ∃ objs, extract_files_from_db data formats = some objs ∧
      Run data formats 0 (fun _ => 0) objs := by
  obtain ⟨objs, h⟩ := carve_loop_total data formats (data.length + 1) 0 (fun _ => 0) (by omega)
  exact ⟨objs, h, carve_loop_run data formats _ _ _ _ h⟩

/-- Every cycle of a run matches at or after the cursor the run started from. -/
theorem Run_start_ge {data : List Byte} {formats : List String} {pos : Nat}
    {cd : String → Int} {objs : List Cycle} (h : Run data formats pos cd objs) :
    ∀ c ∈ objs, pos ≤ c.start := by
  induction h with
  | exit pos cd _ => intro c hc; simp at hc
  | no_match pos cd _ _ => intro c hc; simp at hc
  | cycle pos cd rest hp hf _ ih =>
    have hb := find_next_signature_bounds data pos formats hf
    have hg := resolve_end_gt data _ (find_next_signature data pos formats).2 hb.2
    intro c hc
    rcases List.mem_cons.mp hc with rfl | hc
    · exact hb.1
    · have := ih c hc
      omega

/-- Every later cycle of a run matches at or after the end of an earlier one. -/
theorem Run_pairwise {data : List Byte} {formats : List String} {pos : Nat}
    {cd : String → Int} {objs : List Cycle} (h : Run data formats pos cd objs) :
    List.Pairwise (fun a b => a.end_ ≤ b.start) objs := by
  induction h with
  | exit pos cd _ => exact List.Pairwise.nil
  | no_match pos cd _ _ => exact List.Pairwise.nil
  | cycle pos cd rest _ _ hrest ih =>
    exact List.Pairwise.cons (fun b hb => Run_start_ge hrest b hb) ih

theorem carve_loop_cycle (data : List Byte) (formats : List String) (fuel pos : Nat)
    (cd : String → Int) (s : Nat) (f : String) (hp : pos < data.length)
    (hfind : find_next_signature data pos formats = (s, f)) (hne : f ≠ "") :
    carve_loop data formats (fuel + 1) pos cd =
      (carve_loop data formats fuel (resolve_end data s f) (count_incr cd f)).map
        (fun rest => ⟨pos, s, f, resolve_end data s f, cd f⟩ :: rest) := by
  rw [carve_loop]
  simp only [hp, if_true, hfind, hne, if_false]

theorem carve_loop_exit (data : List Byte) (formats : List String) (fuel pos : Nat)
    (cd : String → Int) (hp : ¬ pos < data.length) :
    carve_loop data formats (fuel + 1) pos cd = some [] := by
  rw [carve_loop]
  simp only [hp, if_false]

/-! ## Occurrences of a marker -/

/-- A pattern that occurs nowhere before the end of the buffer occurs nowhere. -/
theorem not_OccursAt_of_bounded {data : List Byte} {pat : List Byte} (hne : pat ≠ [])
    (h : ∀ q, q < data.length → ¬ OccursAt data q pat) (q : Nat) : ¬ OccursAt data q pat :=
  fun ho => h q (OccursAt_length ho hne).2 ho

theorem OccursAt_append_left {J : List Byte} (P : List Byte) {q : Nat} {pat : List Byte}
    (h : OccursAt J q pat) : OccursAt (J ++ P) q pat := by
  unfold OccursAt at h ⊢
  rw [List.drop_append_eq_append_drop]
  exact h.trans (List.prefix_append _ _)

theorem OccursAt_append_right (J : List Byte) {P : List Byte} {q : Nat} {pat : List Byte}
    (h : OccursAt P q pat) : OccursAt (J ++ P) (J.length + q) pat := by
  unfold OccursAt at h ⊢
  rw [List.drop_append]
  exact h

theorem OccursAt_of_append {J P : List Byte} {q : Nat} {pat : List Byte}
    (h : OccursAt (J ++ P) q pat) (hq : q + pat.length ≤ J.length) : OccursAt J q pat := by
  unfold OccursAt at h ⊢
  rw [List.drop_append_of_le_length (by omega)] at h
  exact List.prefix_of_prefix_length_le h (List.prefix_append _ _)
    (by rw [List.length_drop]; omega)

theorem OccursAt_of_append_right {J P : List Byte} {q : Nat} {pat : List Byte}
    (h : OccursAt (J ++ P) (J.length + q) pat) : OccursAt P q pat := by
  unfold OccursAt at h ⊢
  rw [List.drop_append] at h
  exact h

theorem OccursAt_at_tail {data pat : List Byte} (h : pat <:+ data) :
    OccursAt data (data.length - pat.length) pat := by
  unfold OccursAt
  rw [← List.suffix_iff_eq_drop.mp h]

theorem OccursAt_at_zero {data pat : List Byte} (h : pat <+: data) : OccursAt data 0 pat := by
  unfold OccursAt
  simpa using h

/-- No two catalog formats have start markers that occur at the same place:
their first bytes are pairwise different. -/
theorem catalog_unique_at {data : List Byte} {q : Nat} {f g : String} {sf sg : Signature}
    (hf : FILE_SIGNATURES_find f = some sf) (hg : FILE_SIGNATURES_find g = some sg)
    (hof : OccursAt data q sf.start) (hog : OccursAt data q sg.start) : f = g := by
  have hpp := List.prefix_or_prefix_of_prefix hof hog
  have hmf := FILE_SIGNATURES_find_mem f sf hf
  have hmg := FILE_SIGNATURES_find_mem g sg hg
  simp only [FILE_SIGNATURES, List.mem_cons, Prod.mk.injEq, List.mem_singleton,
    List.not_mem_nil, or_false] at hmf hmg
  rcases hmf with ⟨rfl, rfl⟩ | ⟨rfl, rfl⟩ | ⟨rfl, rfl⟩ | ⟨rfl, rfl⟩ | ⟨rfl, rfl⟩ |
    ⟨rfl, rfl⟩ | ⟨rfl, rfl⟩ <;>
  rcases hmg with ⟨rfl, rfl⟩ | ⟨rfl, rfl⟩ | ⟨rfl, rfl⟩ | ⟨rfl, rfl⟩ | ⟨rfl, rfl⟩ |
    ⟨rfl, rfl⟩ | ⟨rfl, rfl⟩ <;>
  first
    | rfl
    | (exfalso; revert hpp; decide)

/-- A selected catalog format whose start marker lies at the cursor is what
the finder returns. -/
theorem find_next_signature_at_cursor (data : List Byte) (pos : Nat) (formats : List String)
    (f : String) (sig : Signature) (hf : f ∈ formats) (hs : FILE_SIGNATURES_find f = some sig)
    (ho : OccursAt data pos sig.start) : find_next_signature data pos formats = (pos, f) := by
  have hne := (FILE_SIGNATURES_start_ne_nil f sig hs).1
  have hsearch : std_search data pos sig.start = pos :=
    std_search_eq_of_first data pos sig.start pos hne (le_refl _) ho (fun q h1 h2 => by omega)
  have hlt := (OccursAt_length ho hne).2
  rcases find_next_signature_spec data pos formats with ⟨_, hall⟩ | ⟨hl, _, _, sg, hsg, hp, hmin⟩
  · have := hall f hf sig hs
    omega
  · have h1 := hmin f hf sig hs
    have h2 := std_search_ge data pos sg.start
    have hpos : (find_next_signature data pos formats).1 = pos := by omega
    have hog : OccursAt data pos sg.start := by
      have := std_search_occurs data pos sg.start (by omega)
      rwa [← hp, hpos] at this
    have hfg := catalog_unique_at hsg hs hog ho
    exact Prod.ext hpos hfg

/-! ## Boundary rules and the two-object scenario -/

/-- The jpg rule when the end marker is found: two bytes past its first
occurrence at or after `start`. -/
theorem resolve_end_jpg_found (data : List Byte) (start m : Nat) (hm : start ≤ m)
    (ho : OccursAt data m [0xFF, 0xD9])
    (hmin : ∀ q, start ≤ q → q < m → ¬ OccursAt data q [0xFF, 0xD9]) :
    resolve_end data start "jpg" = m + 2 := by
  have hs : std_search data start (FILE_SIGNATURES_at "jpg").end_ = m :=
    std_search_eq_of_first data start _ m (by decide) hm ho hmin
  have hlt := (OccursAt_length ho (by decide)).2
  unfold resolve_end
  simp only [if_true, hs]
  rw [if_pos (by omega)]

/-- The png rule when the end marker is found: twelve bytes past its first
occurrence at or after `start`. -/
theorem resolve_end_png_found (data : List Byte) (start m : Nat) (hm : start ≤ m)
    (ho : OccursAt data m [0x49, 0x45, 0x4E, 0x44])
    (hmin : ∀ q, start ≤ q → q < m → ¬ OccursAt data q [0x49, 0x45, 0x4E, 0x44]) :
    resolve_end data start "png" = m + 12 := by
  have hs : std_search data start (FILE_SIGNATURES_at "png").end_ = m :=
    std_search_eq_of_first data start _ m (by decide) hm ho hmin
  have hlt := (OccursAt_length ho (by decide)).2
  unfold resolve_end
  have hne : ¬ ("png" = "jpg") := by decide
  simp only [hne, if_false, if_true, hs]
  rw [if_pos (by omega)]

/-- The png rule when the end marker is not found: twelve bytes past `start`. -/
theorem resolve_end_png_none (data : List Byte) (start : Nat) (hs : start ≤ data.length)
    (hno : ∀ q, start ≤ q → ¬ OccursAt data q [0x49, 0x45, 0x4E, 0x44]) :
    resolve_end data start "png" = start + 12 := by
  have hs : std_search data start (FILE_SIGNATURES_at "png").end_ = data.length := by
    have h1 := std_search_le data start (FILE_SIGNATURES_at "png").end_ hs
    rcases Nat.lt_or_ge (std_search data start (FILE_SIGNATURES_at "png").end_) data.length
      with h | h
    · exact absurd (std_search_occurs data start _ h) (hno _ (std_search_ge data start _))
    · omega
  unfold resolve_end
  have hne : ¬ ("png" = "jpg") := by decide
  simp only [hne, if_false, if_true, hs]
  rw [if_neg (by simp)]

/-- A jpg object followed by a png object: the run completes two cycles, the
jpg one over the whole of `J` and the png one from the start of `P`. -/
theorem extract_jpg_png (J P crc : List Byte)
    (hJ1 : [0xFF, 0xD8] <+: J) (hJ2 : [0xFF, 0xD9] <:+ J)
    (hJ3 : ∀ q, q + 2 < J.length → ¬ OccursAt J q [0xFF, 0xD9])
    (hP1 : [0x89, 0x50, 0x4E, 0x47, 0x0D, 0x0A, 0x1A, 0x0A] <+: P)
    (hcrc : crc.length = 4) (hP2 : [0x49, 0x45, 0x4E, 0x44] ++ crc <:+ P)
    (hP3 : ∀ q, q + 8 < P.length → ¬ OccursAt P q [0x49, 0x45, 0x4E, 0x44]) :
    extract_files_from_db (J ++ P) ["jpg", "png"] =
      some [⟨0, 0, "jpg", J.length, 0⟩,
        ⟨J.length, J.length, "png", J.length + P.length + 4, 0⟩] := by
  have hJlen : 2 ≤ J.length := by simpa using hJ1.length_le
  have hPlen : 8 ≤ P.length := by simpa using hP1.length_le
  have hP2len : ([0x49, 0x45, 0x4E, 0x44] ++ crc : List Byte).length = 8 := by
    simp [hcrc]
  have hlen : (J ++ P).length = J.length + P.length := List.length_append _ _
  -- first cycle
  have hfind1 : find_next_signature (J ++ P) 0 ["jpg", "png"] = (0, "jpg") :=
    find_next_signature_at_cursor (J ++ P) 0 _ "jpg" ⟨[0xFF, 0xD8], [0xFF, 0xD9]⟩
      (by simp) (by decide) (OccursAt_append_left P (OccursAt_at_zero hJ1))
  have hend1 : resolve_end (J ++ P) 0 "jpg" = J.length := by
    have h := resolve_end_jpg_found (J ++ P) 0 (J.length - 2) (Nat.zero_le _)
      (OccursAt_append_left P (by simpa using OccursAt_at_tail hJ2))
      (fun q _ hq ho => hJ3 q (by omega) (OccursAt_of_append ho (by
        simp only [List.length_cons, List.length_nil]; omega)))
    rw [h]; omega
  -- second cycle
  have hfind2 : find_next_signature (J ++ P) J.length ["jpg", "png"] = (J.length, "png") :=
    find_next_signature_at_cursor (J ++ P) J.length _ "png"
      ⟨[0x89, 0x50, 0x4E, 0x47, 0x0D, 0x0A, 0x1A, 0x0A], [0x49, 0x45, 0x4E, 0x44]⟩
      (by simp) (by decide) (OccursAt_append_right J (OccursAt_at_zero hP1))
  have hiend : OccursAt P (P.length - 8) [0x49, 0x45, 0x4E, 0x44] := by
    have h := OccursAt_at_tail hP2
    rw [hP2len] at h
    exact (List.prefix_append _ _).trans h
  have hend2 : resolve_end (J ++ P) J.length "png" = J.length + P.length + 4 := by
    have h := resolve_end_png_found (J ++ P) J.length (J.length + (P.length - 8))
      (Nat.le_add_right _ _) (OccursAt_append_right J hiend)
      (fun q hq1 hq2 ho => by
        obtain ⟨k, rfl⟩ := Nat.exists_eq_add_of_le hq1
        exact hP3 k (by omega) (OccursAt_of_append_right ho))
    rw [h]; omega
  -- the loop
  have hfuel : (J ++ P).length + 1 = ((J ++ P).length - 2) + 1 + 1 + 1 := by
    rw [hlen]; omega
  unfold extract_files_from_db
  rw [hfuel, carve_loop_cycle _ _ _ 0 _ 0 "jpg" (by rw [hlen]; omega) hfind1 (by decide), hend1,
    carve_loop_cycle _ _ _ J.length _ J.length "png" (by rw [hlen]; omega) hfind2 (by decide),
    hend2, carve_loop_exit _ _ _ _ _ (by rw [hlen]; omega)]
  simp [count_incr]

/-! ## More boundary rules -/

/-- A search from inside the buffer that finds nothing comes back with `size`. -/
theorem std_search_eq_length (data : List Byte) (first : Nat) (pat : List Byte)
    (hf : first ≤ data.length) (hno : ∀ q, first ≤ q → ¬ OccursAt data q pat) :
    std_search data first pat = data.length := by
  have h1 := std_search_le data first pat hf
  rcases Nat.lt_or_ge (std_search data first pat) data.length with h | h
  · exact absurd (std_search_occurs data first pat h) (hno _ (std_search_ge data first pat))
  · omega

/-- The jpg rule when the end marker is not found: two bytes past `start`. -/
theorem resolve_end_jpg_none (data : List Byte) (start : Nat) (hs : start ≤ data.length)
    (hno : ∀ q, start ≤ q → ¬ OccursAt data q [0xFF, 0xD9]) :
    resolve_end data start "jpg" = start + 2 := by
  have h : std_search data start (FILE_SIGNATURES_at "jpg").end_ = data.length :=
    std_search_eq_length data start _ hs hno
  unfold resolve_end
  simp only [if_true, h]
  rw [if_neg (by simp)]

/-- The pdf rule when the end-of-file marker is found: five bytes (the
marker's length) past its first occurrence at or after `start`. -/
theorem resolve_end_pdf_found (data : List Byte) (start m : Nat) (hm : start ≤ m)
    (ho : OccursAt data m [0x25, 0x25, 0x45, 0x4F, 0x46])
    (hmin : ∀ q, start ≤ q → q < m → ¬ OccursAt data q [0x25, 0x25, 0x45, 0x4F, 0x46]) :
    resolve_end data start "pdf" = m + 5 := by
  have hs : std_search data start (FILE_SIGNATURES_at "pdf").end_ = m :=
    std_search_eq_of_first data start _ m (by decide) hm ho hmin
  have hlt := (OccursAt_length ho (by decide)).2
  have hlen : (FILE_SIGNATURES_at "pdf").end_.length = 5 := by decide
  unfold resolve_end
  simp only [show ¬ ("pdf" = "jpg") by decide, show ¬ ("pdf" = "png") by decide,
    show ¬ ("pdf" = "gif") by decide, show ¬ ("pdf" = "bmp") by decide,
    show ¬ ("pdf" = "tiff") by decide, if_false, if_true, hs, hlen]
  rw [if_pos (by omega)]

/-- The pdf rule when the end-of-file marker is not found: six bytes past
`start`. -/
theorem resolve_end_pdf_none (data : List Byte) (start : Nat) (hs : start ≤ data.length)
    (hno : ∀ q, start ≤ q → ¬ OccursAt data q [0x25, 0x25, 0x45, 0x4F, 0x46]) :
    resolve_end data start "pdf" = start + 6 := by
  have h : std_search data start (FILE_SIGNATURES_at "pdf").end_ = data.length :=
    std_search_eq_length data start _ hs hno
  unfold resolve_end
  simp only [show ¬ ("pdf" = "jpg") by decide, show ¬ ("pdf" = "png") by decide,
    show ¬ ("pdf" = "gif") by decide, show ¬ ("pdf" = "bmp") by decide,
    show ¬ ("pdf" = "tiff") by decide, if_false, if_true, h]
  rw [if_neg (by simp)]

/-- The bmp rule, as the program computes it. -/
theorem resolve_end_bmp (data : List Byte) (start : Nat) :
    resolve_end data start "bmp" =
      if start + 6 ≤ data.length then
        if read_u32 data (start + 2) > 0 ∧ start + read_u32 data (start + 2) ≤ data.length
        then start + read_u32 data (start + 2) else start + 2
      else start + 1 := by
  unfold resolve_end
  simp only [show ¬ ("bmp" = "jpg") by decide, show ¬ ("bmp" = "png") by decide,
    show ¬ ("bmp" = "gif") by decide, if_false, if_true]

/-- The tiff rule: the cap of `TIFF_MAX_SIZE` bytes, cut at the end of the buffer. -/
theorem resolve_end_tiff (data : List Byte) (start : Nat) :
    resolve_end data start "tiff" = min (start + 102400) data.length := by
  unfold resolve_end
  simp only [show ¬ ("tiff" = "jpg") by decide, show ¬ ("tiff" = "png") by decide,
    show ¬ ("tiff" = "gif") by decide, show ¬ ("tiff" = "bmp") by decide, if_false, if_true,
    show TIFF_MAX_SIZE = 102400 by decide]

/-- The zip rule: the result of the search for the next zip start marker from
`start + 4`. -/
theorem resolve_end_zip (data : List Byte) (start : Nat) :
    resolve_end data start "zip" = std_search data (start + 4) [0x50, 0x4B, 0x03, 0x04] := by
  unfold resolve_end
  simp only [show ¬ ("zip" = "jpg") by decide, show ¬ ("zip" = "png") by decide,
    show ¬ ("zip" = "gif") by decide, show ¬ ("zip" = "bmp") by decide,
    show ¬ ("zip" = "tiff") by decide, show ¬ ("zip" = "pdf") by decide, if_false, if_true,
    show (FILE_SIGNATURES_at "zip").start = [0x50, 0x4B, 0x03, 0x04] by decide]
  split_ifs with h
  · rfl
  · exact (not_not.mp h).symm

/-- The gif rule, as the program computes it. -/
theorem resolve_end_gif (data : List Byte) (start : Nat) :
    resolve_end data start "gif" =
      if std_search data start [0x3B] ≠ data.length then std_search data start [0x3B] + 1
      else start + 1 := by
  unfold resolve_end
  simp only [show ¬ ("gif" = "jpg") by decide, show ¬ ("gif" = "png") by decide,
    if_false, if_true, show (FILE_SIGNATURES_at "gif").end_ = [0x3B] by decide]

/-- A cycle's format is selected and in the catalog, and its start marker
occurs at the cycle's start. -/
theorem cycle_match {data : List Byte} {formats : List String} {c : Cycle}
    (h1 : find_next_signature data c.pos formats = (c.start, c.fmt)) (h2 : c.fmt ≠ "") :
    c.fmt ∈ formats ∧
      ∃ sig, FILE_SIGNATURES_find c.fmt = some sig ∧ OccursAt data c.start sig.start := by
  rcases find_next_signature_spec data c.pos formats with ⟨hn, _⟩ | ⟨hlt, _, hmem, sig, hs, hp, _⟩
  · rw [h1] at hn
    exact absurd (congrArg Prod.snd hn) h2
  · rw [h1] at hlt hmem hs hp
    simp only at hlt hmem hs hp
    have hocc : OccursAt data c.start sig.start := by
      rw [hp]; exact std_search_occurs data c.pos sig.start (by rw [← hp]; exact hlt)
    exact ⟨hmem, sig, hs, hocc⟩

/-- For a jpg, gif, bmp, tiff or zip match the resolved end lies inside the
buffer. -/
theorem resolve_end_le_five (data : List Byte) (start : Nat) (f : String) (sig : Signature)
    (hs : FILE_SIGNATURES_find f = some sig) (ho : OccursAt data start sig.start)
    (hf : f ∈ ["jpg", "gif", "bmp", "tiff", "zip"]) :
    resolve_end data start f ≤ data.length := by
  have hl := (OccursAt_length ho (FILE_SIGNATURES_start_ne_nil f sig hs).1).1
  simp only [List.mem_cons, List.mem_singleton, List.not_mem_nil, or_false] at hf
  rcases hf with rfl | rfl | rfl | rfl | rfl
  · cases hs
    simp only [List.length_cons, List.length_nil] at hl
    have h1 := std_search_le data start [0xFF, 0xD9] (by omega)
    have h2 : std_search data start [0xFF, 0xD9] < data.length →
        std_search data start [0xFF, 0xD9] + 2 ≤ data.length := fun h =>
      (OccursAt_length (std_search_occurs data start _ h) (by simp)).1
    unfold resolve_end
    simp only [if_true, show (FILE_SIGNATURES_at "jpg").end_ = [0xFF, 0xD9] by decide]
    split_ifs with h
    · exact h2 (by omega)
    · omega
  · cases hs
    simp only [List.length_cons, List.length_nil] at hl
    have h1 := std_search_le data start [0x3B] (by omega)
    rw [resolve_end_gif]
    split_ifs with h <;> omega
  · cases hs
    simp only [List.length_cons, List.length_nil] at hl
    rw [resolve_end_bmp]
    split_ifs with h1 h2 <;> omega
  · rw [resolve_end_tiff]
    exact Nat.min_le_right _ _
  · cases hs
    simp only [List.length_cons, List.length_nil] at hl
    rw [resolve_end_zip]
    exact std_search_le data (start + 4) _ (by omega)

/-- A zip start marker cannot begin one, two or three bytes after another. -/
theorem zip_no_overlap (data : List Byte) (start q : Nat)
    (ho : OccursAt data start [0x50, 0x4B, 0x03, 0x04]) (h1 : start < q) (h2 : q < start + 4) :
    ¬ OccursAt data q [0x50, 0x4B, 0x03, 0x04] := by
  intro hq
  unfold OccursAt at ho hq
  rw [List.isPrefix_iff] at ho hq
  have hq0 := hq 0 (by simp)
  simp only [List.getElem?_drop, Nat.add_zero, List.getElem_cons_zero] at hq0
  obtain ⟨k, rfl⟩ := Nat.exists_eq_add_of_lt h1
  have hk : k < 3 := by omega
  have hk1 := ho (k + 1) (by simp only [List.length_cons, List.length_nil]; omega)
  rw [List.getElem?_drop] at hk1
  have e : start + k + 1 = start + (k + 1) := by omega
  rw [e] at hq0
  rw [hq0] at hk1
  interval_cases k <;> simp at hk1

/-- After a zip object that stops before the end of the buffer, the run goes
on with another zip object. -/
theorem Run_zip_next {data : List Byte} {formats : List String} {pos : Nat}
    {cd : String → Int} {objs : List Cycle} (h : Run data formats pos cd objs)
    (hz : "zip" ∈ formats) (ho : OccursAt data pos [0x50, 0x4B, 0x03, 0x04]) :
    ∃ c rest, objs = c :: rest ∧ c.fmt = "zip" := by
  have hf := find_next_signature_at_cursor data pos formats "zip"
    ⟨[0x50, 0x4B, 0x03, 0x04], []⟩ hz (by decide) ho
  have hlt := (OccursAt_length ho (by simp)).2
  cases h with
  | exit _ _ hp => exact absurd hlt hp
  | no_match _ _ _ hn =>
    rw [hf] at hn
    have hne : ¬ ("zip" = "") := by decide
    exact absurd hn hne
  | cycle _ _ rest _ _ _ => exact ⟨_, rest, rfl, by rw [hf]⟩

/-- The last zip object of a run ends at the end of the buffer. -/
theorem Run_last_zip {data : List Byte} {formats : List String} {pos : Nat}
    {cd : String → Int} {objs : List Cycle} (h : Run data formats pos cd objs) :
    ∀ (pre : List Cycle) (c : Cycle) (post : List Cycle), objs = pre ++ c :: post →
      c.fmt = "zip" → (∀ d ∈ post, d.fmt ≠ "zip") → c.end_ = data.length := by
  induction h with
  | exit pos cd _ => intro pre c post he; simp at he
  | no_match pos cd _ _ => intro pre c post he; simp at he
  | cycle pos cd rest hp hf hrest ih =>
    intro pre c post he hz hpost
    cases pre with
    | nil =>
      simp only [List.nil_append, List.cons.injEq] at he
      obtain ⟨hc, hrp⟩ := he
      subst hrp
      have hfacts : find_next_signature data c.pos formats = (c.start, c.fmt) ∧
          c.end_ = resolve_end data c.start c.fmt := by subst hc; exact ⟨rfl, rfl⟩
      have hne : c.fmt ≠ "" := by rw [hz]; decide
      obtain ⟨hmem, sig, hs, hocc⟩ := cycle_match hfacts.1 hne
      rw [hz] at hmem hs
      cases hs
      have hl := (OccursAt_length hocc (by simp)).1
      simp only [List.length_cons, List.length_nil] at hl
      have hend : c.end_ = std_search data (c.start + 4) [0x50, 0x4B, 0x03, 0x04] := by
        rw [hfacts.2, hz, resolve_end_zip]
      have hle := std_search_le data (c.start + 4) [0x50, 0x4B, 0x03, 0x04] hl
      rcases Nat.lt_or_ge c.end_ data.length with hlt | hge
      · exfalso
        have hoe : OccursAt data c.end_ [0x50, 0x4B, 0x03, 0x04] := by
          rw [hend]; exact std_search_occurs data _ _ (by rw [← hend]; exact hlt)
        have hrest2 : Run data formats c.end_
            (count_incr cd (find_next_signature data pos formats).2) rest := by
          subst hc; exact hrest
        obtain ⟨d, rest2, hd, hdz⟩ := Run_zip_next hrest2 hmem hoe
        exact hpost d (by rw [hd]; exact List.mem_cons_self _ _) hdz
      · omega
    | cons a pre2 =>
      simp only [List.cons_append, List.cons.injEq] at he
      exact ih pre2 c post he.2 hz hpost

/-- The sample has 102402 bytes. -/
theorem tiff_sample_length : tiff_sample.length = 102402 := by
  unfold tiff_sample
  rw [List.length_append, List.length_replicate]
  rfl

/-- With `tiff` selected the run on `tiff_sample` first emits the object
`[0, 102400)`. -/
theorem tiff_sample_run :
    ∃ rest, extract_files_from_db tiff_sample ["tiff"] =
      some (⟨0, 0, "tiff", 102400, 0⟩ :: rest) := by
  have hlen := tiff_sample_length
  have hocc : OccursAt tiff_sample 0 [0x49, 0x49, 0x2A, 0x00] := by
    unfold tiff_sample
    exact OccursAt_append_left _ (OccursAt_at_zero (List.prefix_refl _))
  have hfind : find_next_signature tiff_sample 0 ["tiff"] = (0, "tiff") :=
    find_next_signature_at_cursor tiff_sample 0 _ "tiff" ⟨[0x49, 0x49, 0x2A, 0x00], []⟩
      (by simp) (by decide) hocc
  have hend : resolve_end tiff_sample 0 "tiff" = 102400 := by
    rw [resolve_end_tiff, hlen]
    omega
  obtain ⟨rest, hrest⟩ := carve_loop_total tiff_sample ["tiff"] tiff_sample.length 102400
    (count_incr (fun _ => 0) "tiff") (by rw [hlen]; omega)
  refine ⟨rest, ?_⟩
  unfold extract_files_from_db
  rw [carve_loop_cycle _ _ _ 0 _ 0 "tiff" (by rw [hlen]; omega) hfind (by decide), hend, hrest]
  rfl

/-! ## The sequence counter -/

/-- For every format, the counts handed to `save_file` for its objects are, in
emission order, `0, 1, 2, ...` as 32-bit `int`s. -/
theorem extract_counts_wrapped (data : List Byte) (formats : List String) (f : String) :
    ∃ objs, extract_files_from_db data formats = some objs ∧
      (objs.filter (fun c => c.fmt = f)).map (fun c => c.count) =
        (List.range (objs.filter (fun c => c.fmt = f)).length).map
          (fun (i : Nat) => int_wrap (i : Int)) := by
  obtain ⟨objs, he, hr⟩ := extract_files_from_db_run data formats
  refine ⟨objs, he, ?_⟩
  have h := Run_counts hr f 0 (by decide)
  simpa using h

/-- As long as a format has at most `2 ^ 31` objects, the counts handed to
`save_file` for them are exactly `0, 1, ..., k - 1`. -/
theorem extract_counts_below_overflow (data : List Byte) (formats : List String) (f : String) :
    ∃ objs, extract_files_from_db data formats = some objs ∧
      ((objs.filter (fun c => c.fmt = f)).length ≤ 2147483648 →
        (objs.filter (fun c => c.fmt = f)).map (fun c => c.count) =
          (List.range (objs.filter (fun c => c.fmt = f)).length).map
            (fun (i : Nat) => (i : Int))) := by
  obtain ⟨objs, he, h⟩ := extract_counts_wrapped data formats f
  refine ⟨objs, he, fun hk => ?_⟩
  rw [h]
  exact List.map_congr_left fun i hi => int_wrap_of_lt i (by
    have := List.mem_range.mp hi
    omega)

theorem zip_markers_length (n : Nat) : (zip_markers n).length = 4 * n := by
  induction n with
  | zero => rfl
  | succ n ih => simp only [zip_markers, List.length_append, ih, List.length_cons,
      List.length_nil]; omega

/-- In front of a run of zip markers the search for the zip marker stops at once. -/
theorem std_search_zip_markers (data : List Byte) (q n : Nat)
    (h : data.drop q = zip_markers n) : std_search data q [0x50, 0x4B, 0x03, 0x04] = q := by
  unfold std_search
  rw [h]
  cases n with
  | zero => rfl
  | succ n => simp [zip_markers, searchFrom, List.isPrefixOf]

/-- On a tail of `n` zip markers the run emits `n` objects, all zip. -/
theorem Run_zip_markers (data : List Byte) (formats : List String) (hz : "zip" ∈ formats) :
    ∀ (n pos : Nat) (cd : String → Int) (objs : List Cycle),
      data.drop pos = zip_markers n → Run data formats pos cd objs →
      objs.length = n ∧ ∀ c ∈ objs, c.fmt = "zip" := by
  intro n
  induction n with
  | zero =>
    intro pos cd objs hd hr
    have hlen : data.length ≤ pos := by
      have := congrArg List.length hd
      rw [List.length_drop] at this
      simp only [zip_markers, List.length_nil] at this
      omega
    cases hr with
    | exit _ _ _ => simp
    | no_match _ _ hp _ => omega
    | cycle _ _ _ hp _ _ => omega
  | succ n ih =>
    intro pos cd objs hd hr
    have hocc : OccursAt data pos [0x50, 0x4B, 0x03, 0x04] := by
      unfold OccursAt
      rw [hd]
      exact ⟨zip_markers n, rfl⟩
    have hf := find_next_signature_at_cursor data pos formats "zip"
      ⟨[0x50, 0x4B, 0x03, 0x04], []⟩ hz (by decide) hocc
    have hlt := (OccursAt_length hocc (by simp)).2
    have hd4 : data.drop (pos + 4) = zip_markers n := by
      rw [← List.drop_drop, hd]
      rfl
    have hend : resolve_end data pos "zip" = pos + 4 := by
      rw [resolve_end_zip]
      exact std_search_zip_markers data (pos + 4) n hd4
    cases hr with
    | exit _ _ hp => exact absurd hlt hp
    | no_match _ _ _ hn =>
      rw [hf] at hn
      have hne : ¬ ("zip" = "") := by decide
      exact absurd hn hne
    | cycle _ _ rest _ _ hrest =>
      rw [hf] at hrest
      simp only at hrest
      rw [hend] at hrest
      obtain ⟨h1, h2⟩ := ih (pos + 4) _ rest hd4 hrest
      refine ⟨by simp [h1], fun c hc => ?_⟩
      rcases List.mem_cons.mp hc with rfl | hc
      · rw [hf]
      · exact h2 c hc

/-! ## The claims -/

/-- C1 (boundary containment, refuted on the code): on the buffer made of the
8-byte png start marker alone, with `png` selected, the loop emits one object
with `end = 12`, past the 8 bytes of the buffer; on the 5-byte pdf start marker
alone, with `pdf` selected, it emits one object with `end = 6`. -/
theorem png_header_end_exceeds_buffer :
    extract_files_from_db [0x89, 0x50, 0x4E, 0x47, 0x0D, 0x0A, 0x1A, 0x0A] ["png"] =
      some [⟨0, 0, "png", 12, 0⟩] ∧
    [(0x89 : Byte), 0x50, 0x4E, 0x47, 0x0D, 0x0A, 0x1A, 0x0A].length = 8 ∧
    extract_files_from_db [0x25, 0x50, 0x44, 0x46, 0x2D] ["pdf"] = some [⟨0, 0, "pdf", 6, 0⟩] ∧
    [(0x25 : Byte), 0x50, 0x44, 0x46, 0x2D].length = 5 := by
  decide

/-- C2 (earliest match wins): for a cursor inside the buffer, whenever
`find_next_signature` returns a format `f` (a non-empty name) at position `p`,
`f` is selected, `pos <= p`, the start marker of `f` occurs at `p` entirely
inside the buffer, and no selected catalog format's start marker occurs at any
`q` with `pos <= q < p`; the returned format is empty exactly when no selected
catalog format's start marker occurs at or after the cursor, and the result is
then `(size, "")`. -/
theorem finder_earliest_match (data : List Byte) (pos : Nat) (formats : List String)
    (_hpos : pos ≤ data.length) :
    (∀ p f, find_next_signature data pos formats = (p, f) → f ≠ "" →
        f ∈ formats ∧ pos ≤ p ∧
        (∃ sig, FILE_SIGNATURES_find f = some sig ∧ OccursAt data p sig.start ∧
          p + sig.start.length ≤ data.length) ∧
        ∀ q, pos ≤ q → q < p → ∀ g ∈ formats, ∀ sg, FILE_SIGNATURES_find g = some sg →
          ¬ OccursAt data q sg.start) ∧
    ((find_next_signature data pos formats).2 = "" ↔
      ∀ g ∈ formats, ∀ sg, FILE_SIGNATURES_find g = some sg →
        ∀ q, pos ≤ q → ¬ OccursAt data q sg.start) ∧
    ((find_next_signature data pos formats).2 = "" →
      find_next_signature data pos formats = (data.length, "")) := by
  rcases find_next_signature_spec data pos formats with ⟨he, hall⟩ | ⟨hlt, hne, hmem, sig, hs, hp, hmin⟩
  · refine ⟨?_, ?_, fun _ => he⟩
    · intro p f hpf hf
      rw [he] at hpf
      cases hpf
      exact absurd rfl hf
    · rw [he]
      refine ⟨fun _ g hg sg hsg q hq => ?_, fun _ => rfl⟩
      exact std_search_none data pos sg.start (FILE_SIGNATURES_start_ne_nil g sg hsg).1
        (hall g hg sg hsg) q hq
  · have hocc : OccursAt data (find_next_signature data pos formats).1 sig.start := by
      rw [hp]; exact std_search_occurs data pos sig.start (by rw [← hp]; exact hlt)
    have hge : pos ≤ (find_next_signature data pos formats).1 := by
      rw [hp]; exact std_search_ge data pos sig.start
    refine ⟨?_, ?_, fun h => absurd h hne⟩
    · intro p f hpf _
      rw [hpf] at hmem hs hp hmin hocc hge
      simp only at hmem hs hp hmin hocc hge
      refine ⟨hmem, hge, ⟨sig, hs, hocc,
        (OccursAt_length hocc (FILE_SIGNATURES_start_ne_nil f sig hs).1).1⟩, ?_⟩
      intro q hq hqp g hg sg hsg
      exact std_search_min data pos sg.start q hq (lt_of_lt_of_le hqp (hmin g hg sg hsg))
    · refine ⟨fun h => absurd h hne, fun hno => ?_⟩
      exact absurd hocc (hno _ hmem sig hs _ hge)

/-- C2 at the buffer `00 89 FF D8 42 4D`, cursor `1`, formats `bmp` and `jpg`
(the finder returns `jpg` at `2`). -/
theorem finder_earliest_match_witness :
    (1 : Nat) ≤ [(0x00 : Byte), 0x89, 0xFF, 0xD8, 0x42, 0x4D].length ∧
    ((∀ p f, find_next_signature [0x00, 0x89, 0xFF, 0xD8, 0x42, 0x4D] 1 ["bmp", "jpg"] = (p, f) →
        f ≠ "" →
        f ∈ ["bmp", "jpg"] ∧ 1 ≤ p ∧
        (∃ sig, FILE_SIGNATURES_find f = some sig ∧
          OccursAt [0x00, 0x89, 0xFF, 0xD8, 0x42, 0x4D] p sig.start ∧
          p + sig.start.length ≤ [(0x00 : Byte), 0x89, 0xFF, 0xD8, 0x42, 0x4D].length) ∧
        ∀ q, 1 ≤ q → q < p → ∀ g ∈ ["bmp", "jpg"], ∀ sg, FILE_SIGNATURES_find g = some sg →
          ¬ OccursAt [0x00, 0x89, 0xFF, 0xD8, 0x42, 0x4D] q sg.start) ∧
    ((find_next_signature [0x00, 0x89, 0xFF, 0xD8, 0x42, 0x4D] 1 ["bmp", "jpg"]).2 = "" ↔
      ∀ g ∈ ["bmp", "jpg"], ∀ sg, FILE_SIGNATURES_find g = some sg →
        ∀ q, 1 ≤ q → ¬ OccursAt [0x00, 0x89, 0xFF, 0xD8, 0x42, 0x4D] q sg.start) ∧
    ((find_next_signature [0x00, 0x89, 0xFF, 0xD8, 0x42, 0x4D] 1 ["bmp", "jpg"]).2 = "" →
      find_next_signature [0x00, 0x89, 0xFF, 0xD8, 0x42, 0x4D] 1 ["bmp", "jpg"] =
        ([(0x00 : Byte), 0x89, 0xFF, 0xD8, 0x42, 0x4D].length, ""))) :=
  ⟨by decide, finder_earliest_match _ 1 ["bmp", "jpg"] (by decide)⟩

/-- C3 (termination): the run completes (the fuel `size + 1` is enough); in
every completed cycle the cursor on entry is at most the matched start, which
is strictly below the resolved end, so the cursor grows by at least one; the
first cycle starts at cursor `0` and each later cycle at the previous resolved
end, so the cursors are strictly increasing; and there are at most `size`
cycles. -/
theorem carving_terminates (data : List Byte) (formats : List String) :
    ∃ objs, extract_files_from_db data formats = some objs ∧
      (∀ c ∈ objs, c.pos ≤ c.start ∧ c.start < c.end_ ∧ c.pos + 1 ≤ c.end_ ∧
        c.pos < data.length) ∧
      (∀ c ∈ objs.head?, c.pos = 0) ∧
      List.Chain' (fun a b => b.pos = a.end_) objs ∧
      List.Chain' (fun a b => a.pos + 1 ≤ b.pos) objs ∧
      objs.length ≤ data.length := by
  obtain ⟨objs, he, hr⟩ := extract_files_from_db_run data formats
  have hfacts := Run_cycle_facts hr
  have hord : ∀ c ∈ objs, c.pos ≤ c.start ∧ c.start < c.end_ ∧ c.pos + 1 ≤ c.end_ ∧
      c.pos < data.length := by
    intro c hc
    obtain ⟨h0, h1, h2, h3⟩ := hfacts c hc
    have := cycle_order h1 h2 h3
    exact ⟨this.1, this.2.2, by omega, h0⟩
  refine ⟨objs, he, hord, Run_head hr, Run_chain hr, ?_, by have := Run_length hr; omega⟩
  have hch := Run_chain hr
  clear hr he hfacts
  induction objs with
  | nil => exact List.chain'_nil
  | cons a l ih =>
    rw [List.chain'_cons'] at hch ⊢
    refine ⟨fun b hb => ?_, ih (fun c hc => hord c (List.mem_cons_of_mem _ hc)) hch.2⟩
    have := hch.1 b hb
    have := hord a (List.mem_cons_self _ _)
    omega

/-- C4 (order and disjointness): each cycle resumes at the previous resolved
end, every object starts at or after the end of the object emitted just before
it, and more generally at or after the end of every earlier object. -/
theorem objects_ordered_disjoint (data : List Byte) (formats : List String) :
    ∃ objs, extract_files_from_db data formats = some objs ∧
      List.Chain' (fun a b => b.pos = a.end_) objs ∧
      List.Chain' (fun a b => a.end_ ≤ b.start) objs ∧
      List.Pairwise (fun a b => a.end_ ≤ b.start) objs := by
  obtain ⟨objs, he, hr⟩ := extract_files_from_db_run data formats
  exact ⟨objs, he, Run_chain hr, (Run_pairwise hr).chain', Run_pairwise hr⟩

/-- C5 (per-format sequencing, refuted on the code): the counter is a 32-bit
`int`.  On the buffer of `2 ^ 31 + 1` zip start markers back to back, with `zip`
selected, the run emits `2 ^ 31 + 1` zip objects; the count handed to
`save_file` for the last of them is `-2147483648`, the wrapped value of
`2147483648`, so the counts of the zip objects are not `0, 1, ..., k - 1`. -/
theorem zip_counter_overflows :
    (zip_markers 2147483649).length = 4 * 2147483649 ∧
    ∃ objs, extract_files_from_db (zip_markers 2147483649) ["zip"] = some objs ∧
      (objs.filter (fun c => c.fmt = "zip")).length = 2147483649 ∧
      (∃ c ∈ objs, c.fmt = "zip" ∧ c.count = -2147483648) ∧
      (objs.filter (fun c => c.fmt = "zip")).map (fun c => c.count) ≠
        (List.range (objs.filter (fun c => c.fmt = "zip")).length).map
          (fun (i : Nat) => (i : Int)) := by
  refine ⟨zip_markers_length _, ?_⟩
  obtain ⟨objs, he, hr⟩ := extract_files_from_db_run (zip_markers 2147483649) ["zip"]
  obtain ⟨hlen, hall⟩ := Run_zip_markers (zip_markers 2147483649) ["zip"] (by simp)
    2147483649 0 _ objs (by simp) hr
  have hfilter : objs.filter (fun c => c.fmt = "zip") = objs :=
    List.filter_eq_self.mpr (fun c hc => by simpa using hall c hc)
  have hcounts := Run_counts hr "zip" 0 (by decide)
  rw [hfilter] at hcounts
  have hi : 2147483648 < objs.length := by rw [hlen]; decide
  have hget : (objs.get ⟨2147483648, hi⟩).count = -2147483648 := by
    have h1 : (objs.map (fun c => c.count))[2147483648]? =
        ((List.range objs.length).map
          (fun (i : Nat) => int_wrap (0 + (i : Int))))[2147483648]? := by rw [hcounts]
    rw [List.getElem?_map, List.getElem?_map, List.getElem?_range hi,
      List.getElem?_eq_getElem hi] at h1
    simp only [Option.map_some', Option.some.injEq] at h1
    rw [List.get_eq_getElem, h1]
    decide
  have hmem : objs.get ⟨2147483648, hi⟩ ∈ objs := List.get_mem _ _ _
  refine ⟨objs, he, by rw [hfilter, hlen], ⟨_, hmem, hall _ hmem, hget⟩, ?_⟩
  rw [hfilter]
  intro heq
  have hin : (objs.get ⟨2147483648, hi⟩).count ∈ objs.map (fun c => c.count) :=
    List.mem_map.mpr ⟨_, hmem, rfl⟩
  rw [heq, hget] at hin
  obtain ⟨i, _, hi2⟩ := List.mem_map.mp hin
  omega

/-- C6 (genuine matches): every emitted object's format is selected and is a
catalog format whose start marker occurs at the object's start, entirely inside
the buffer; and a buffer in which the only catalog start markers that occur
are zip markers yields no object when only `jpg` is selected. -/
theorem objects_are_genuine_matches (data : List Byte) (formats : List String) :
    (∃ objs, extract_files_from_db data formats = some objs ∧
      ∀ c ∈ objs, c.fmt ∈ formats ∧
        ∃ sig, FILE_SIGNATURES_find c.fmt = some sig ∧ OccursAt data c.start sig.start ∧
          c.start + sig.start.length ≤ data.length) ∧
    ((∀ f sig q, FILE_SIGNATURES_find f = some sig → OccursAt data q sig.start → f = "zip") →
      extract_files_from_db data ["jpg"] = some []) := by
  have key : ∀ fs : List String, ∃ objs, extract_files_from_db data fs = some objs ∧
      ∀ c ∈ objs, c.fmt ∈ fs ∧
        ∃ sig, FILE_SIGNATURES_find c.fmt = some sig ∧ OccursAt data c.start sig.start ∧
          c.start + sig.start.length ≤ data.length := by
    intro fs
    obtain ⟨objs, he, hr⟩ := extract_files_from_db_run data fs
    refine ⟨objs, he, fun c hc => ?_⟩
    obtain ⟨_, h1, h2, _⟩ := Run_cycle_facts hr c hc
    rcases find_next_signature_spec data c.pos fs with ⟨hn, _⟩ | ⟨hlt, _, hmem, sig, hs, hp, _⟩
    · rw [h1] at hn
      exact absurd (congrArg Prod.snd hn) h2
    · rw [h1] at hlt hmem hs hp
      simp only at hlt hmem hs hp
      have hocc : OccursAt data c.start sig.start := by
        rw [hp]; exact std_search_occurs data c.pos sig.start (by rw [← hp]; exact hlt)
      exact ⟨hmem, sig, hs, hocc,
        (OccursAt_length hocc (FILE_SIGNATURES_start_ne_nil _ _ hs).1).1⟩
  refine ⟨key formats, fun honly => ?_⟩
  obtain ⟨objs, he, hall⟩ := key ["jpg"]
  cases objs with
  | nil => exact he
  | cons c cs =>
    obtain ⟨hm, sig, hs, ho, _⟩ := hall c (List.mem_cons_self _ _)
    have hz := honly c.fmt sig c.start hs ho
    rw [hz] at hm
    exact absurd hm (by decide)

/-- C6 at the buffer `00 50 4B 03 04 00`, whose only start marker is the zip
one: with `jpg` selected the run emits nothing. -/
theorem objects_are_genuine_matches_witness :
    extract_files_from_db [0x00, 0x50, 0x4B, 0x03, 0x04, 0x00] ["jpg"] = some [] :=
  (objects_are_genuine_matches [0x00, 0x50, 0x4B, 0x03, 0x04, 0x00] ["jpg"]).2 (by
    intro f sig q hs ho
    have hq := (OccursAt_length ho (FILE_SIGNATURES_start_ne_nil f sig hs).1).2
    have hm := FILE_SIGNATURES_find_mem f sig hs
    simp only [FILE_SIGNATURES, List.mem_cons, Prod.mk.injEq, List.mem_singleton,
      List.not_mem_nil, or_false] at hm
    simp only [List.length_cons, List.length_nil] at hq
    rcases hm with ⟨rfl, rfl⟩ | ⟨rfl, rfl⟩ | ⟨rfl, rfl⟩ | ⟨rfl, rfl⟩ | ⟨rfl, rfl⟩ |
      ⟨rfl, rfl⟩ | ⟨rfl, rfl⟩ <;> first
      | rfl
      | (exfalso; revert ho; interval_cases q <;> decide))

/-- C7 (no-match termination): when no selected catalog format's start marker
occurs anywhere in the buffer, the finder called at cursor `0` returns the
no-match result, the loop is over within its first iteration (one unit of fuel
is enough) with nothing emitted, and the whole run emits nothing. -/
theorem no_match_termination (data : List Byte) (formats : List String)
    (hno : ∀ g ∈ formats, ∀ sg, FILE_SIGNATURES_find g = some sg →
      ∀ q, ¬ OccursAt data q sg.start) :
    find_next_signature data 0 formats = (data.length, "") ∧
      (∀ cd, carve_loop data formats 1 0 cd = some []) ∧
      extract_files_from_db data formats = some [] := by
  have hf : find_next_signature data 0 formats = (data.length, "") := by
    rcases find_next_signature_spec data 0 formats with ⟨he, _⟩ | ⟨hlt, _, hmem, sig, hs, hp, _⟩
    · exact he
    · exact absurd (std_search_occurs data 0 sig.start (by rw [← hp]; exact hlt))
        (hno _ hmem sig hs _)
  refine ⟨hf, fun cd => ?_, ?_⟩
  · simp [carve_loop, hf]
  · simp [extract_files_from_db, carve_loop, hf]

/-- C7 at the buffer `00 50 4B 03 04 FF` with `jpg` and `png` selected. -/
theorem no_match_termination_witness :
    (∀ g ∈ ["jpg", "png"], ∀ sg, FILE_SIGNATURES_find g = some sg →
      ∀ q, ¬ OccursAt [0x00, 0x50, 0x4B, 0x03, 0x04, 0xFF] q sg.start) ∧
    (find_next_signature [0x00, 0x50, 0x4B, 0x03, 0x04, 0xFF] 0 ["jpg", "png"] =
        ([(0x00 : Byte), 0x50, 0x4B, 0x03, 0x04, 0xFF].length, "") ∧
      (∀ cd, carve_loop [0x00, 0x50, 0x4B, 0x03, 0x04, 0xFF] ["jpg", "png"] 1 0 cd = some []) ∧
      extract_files_from_db [0x00, 0x50, 0x4B, 0x03, 0x04, 0xFF] ["jpg", "png"] = some []) := by
  have hno : ∀ g ∈ ["jpg", "png"], ∀ sg, FILE_SIGNATURES_find g = some sg →
      ∀ q, ¬ OccursAt [0x00, 0x50, 0x4B, 0x03, 0x04, 0xFF] q sg.start := by
    intro g hg sg hs
    simp only [List.mem_cons, List.mem_singleton, List.not_mem_nil, or_false] at hg
    rcases hg with rfl | rfl
    · cases hs
      exact not_OccursAt_of_bounded (by simp) (by decide)
    · cases hs
      exact not_OccursAt_of_bounded (by simp) (by decide)
  exact ⟨hno, no_match_termination _ _ hno⟩

/-- C8 as stated fails: on `FF D8 41 41 41 FF D9` with `jpg` selected the run
does not yield a single jpg object with start `0`, end `6` and sequence `0`. -/
theorem jpg_scenario_end_is_not_six :
    ¬ ∃ c, extract_files_from_db [0xFF, 0xD8, 0x41, 0x41, 0x41, 0xFF, 0xD9] ["jpg"] = some [c] ∧
      c.fmt = "jpg" ∧ c.start = 0 ∧ c.end_ = 6 ∧ c.count = 0 := by
  rintro ⟨c, h, _, _, h6, _⟩
  have h7 : extract_files_from_db [0xFF, 0xD8, 0x41, 0x41, 0x41, 0xFF, 0xD9] ["jpg"] =
      some [⟨0, 0, "jpg", 7, 0⟩] := by decide
  rw [h7] at h
  simp only [Option.some.injEq, List.cons.injEq, and_true] at h
  subst h
  exact absurd h6 (by decide)

/-- C8 amended: the buffer `FF D8 41 41 41 FF D9` has 7 bytes, and with `jpg`
selected the run yields exactly one object: jpg, start `0`, end `7`,
sequence `0`. -/
theorem jpg_scenario_seven_bytes :
    [(0xFF : Byte), 0xD8, 0x41, 0x41, 0x41, 0xFF, 0xD9].length = 7 ∧
    extract_files_from_db [0xFF, 0xD8, 0x41, 0x41, 0x41, 0xFF, 0xD9] ["jpg"] =
      some [⟨0, 0, "jpg", 7, 0⟩] := by
  decide

/-- C9 (jpg then png): if `J` begins with `FF D8`, ends with `FF D9` and has no
earlier `FF D9`, and `P` begins with the png start marker, ends with
`49 45 4E 44` followed by a 4-byte CRC and has no earlier `49 45 4E 44`, then
on `J ++ P` with `jpg` and `png` selected the run yields exactly two objects:
a jpg object starting at `0` and then a png object starting at `J.length`, at or
after the end of the jpg object, each with sequence `0`. -/
theorem jpg_then_png_scenario (J P crc : List Byte)
    (hJ1 : [0xFF, 0xD8] <+: J) (hJ2 : [0xFF, 0xD9] <:+ J)
    (hJ3 : ∀ q, q + 2 < J.length → ¬ OccursAt J q [0xFF, 0xD9])
    (hP1 : [0x89, 0x50, 0x4E, 0x47, 0x0D, 0x0A, 0x1A, 0x0A] <+: P)
    (hcrc : crc.length = 4) (hP2 : [0x49, 0x45, 0x4E, 0x44] ++ crc <:+ P)
    (hP3 : ∀ q, q + 8 < P.length → ¬ OccursAt P q [0x49, 0x45, 0x4E, 0x44]) :
    ∃ j p, extract_files_from_db (J ++ P) ["jpg", "png"] = some [j, p] ∧
      j.fmt = "jpg" ∧ j.start = 0 ∧ j.count = 0 ∧
      p.fmt = "png" ∧ p.start = J.length ∧ p.count = 0 ∧
      j.end_ ≤ p.start :=
  ⟨_, _, extract_jpg_png J P crc hJ1 hJ2 hJ3 hP1 hcrc hP2 hP3, rfl, rfl, rfl, rfl, rfl, rfl,
    le_refl _⟩

/-- C9 at `J = FF D8 41 FF D9` and the twenty-byte png object `png_sample`. -/
theorem jpg_then_png_scenario_witness :
    ∃ j p, extract_files_from_db (jpg_sample ++ png_sample) ["jpg", "png"] = some [j, p] ∧
      j.fmt = "jpg" ∧ j.start = 0 ∧ j.count = 0 ∧
      p.fmt = "png" ∧ p.start = jpg_sample.length ∧ p.count = 0 ∧
      j.end_ ≤ p.start :=
  jpg_then_png_scenario jpg_sample png_sample [0xAE, 0x42, 0x60, 0x82]
    (by decide) (by decide)
    (by
      intro q hq
      have hq3 : q < 3 := by simp only [jpg_sample, List.length_cons, List.length_nil] at hq; omega
      interval_cases q <;> decide)
    (by decide) (by decide) (by decide)
    (by
      intro q hq
      have hq12 : q < 12 := by
        simp only [png_sample, List.length_cons, List.length_nil] at hq; omega
      interval_cases q <;> decide)

/-- C10 (png boundary rule, refuted on the code): in the twenty-byte png object
`png_sample` the end marker is found at `12` and the CRC that follows it ends
at `12 + 4 + 4 = 20`, the end of the buffer, but the resolved end is
`12 + 12 = 24`, and the run emits the object `[0, 24)`. -/
theorem png_end_overshoots_crc :
    png_sample.length = 20 ∧
    std_search png_sample 0 (FILE_SIGNATURES_at "png").end_ = 12 ∧
    12 + (FILE_SIGNATURES_at "png").end_.length + 4 = png_sample.length ∧
    resolve_end png_sample 0 "png" = 24 ∧
    extract_files_from_db png_sample ["png"] = some [⟨0, 0, "png", 24, 0⟩] := by
  decide

/-- C11 (pdf boundary rule, refuted on the code): the pdf start marker of the
catalog has 5 bytes, but when the end-of-file marker is missing the resolved
end is `start + 6`: on `%PDF-1.4` followed by a line feed the object is the 6
bytes `%PDF-1`, and on the bare 5-byte marker the run emits the object
`[0, 6)`, past the end of the buffer. -/
theorem pdf_fallback_exceeds_marker :
    (FILE_SIGNATURES_at "pdf").start.length = 5 ∧
    resolve_end [0x25, 0x50, 0x44, 0x46, 0x2D, 0x31, 0x2E, 0x34, 0x0A] 0 "pdf" = 0 + 6 ∧
    [(0x25 : Byte), 0x50, 0x44, 0x46, 0x2D].length = 5 ∧
    extract_files_from_db [0x25, 0x50, 0x44, 0x46, 0x2D] ["pdf"] =
      some [⟨0, 0, "pdf", 6, 0⟩] := by
  decide

/-- C12 as stated fails: the 6-byte buffer `42 4D 00 00 00 00` begins with the
bmp marker followed by the size field `V = 0 <= 6`, and with `bmp` selected the
run emits one object of 2 bytes (`end = 2`); its first object is not a bmp
object starting at `0` with `end = V`. -/
theorem bmp_zero_size_field_gives_two :
    read_u32 [0x42, 0x4D, 0x00, 0x00, 0x00, 0x00] 2 = 0 ∧
    extract_files_from_db [0x42, 0x4D, 0x00, 0x00, 0x00, 0x00] ["bmp"] =
      some [⟨0, 0, "bmp", 2, 0⟩] ∧
    ¬ ∃ c rest, extract_files_from_db [0x42, 0x4D, 0x00, 0x00, 0x00, 0x00] ["bmp"] =
        some (c :: rest) ∧
      c.fmt = "bmp" ∧ c.start = 0 ∧
      c.end_ = read_u32 [0x42, 0x4D, 0x00, 0x00, 0x00, 0x00] 2 := by
  have hrun : extract_files_from_db [0x42, 0x4D, 0x00, 0x00, 0x00, 0x00] ["bmp"] =
      some [⟨0, 0, "bmp", 2, 0⟩] := by decide
  have hval : read_u32 [0x42, 0x4D, 0x00, 0x00, 0x00, 0x00] 2 = 0 := by decide
  refine ⟨hval, hrun, ?_⟩
  rintro ⟨c, rest, h, _, _, he⟩
  rw [hrun] at h
  simp only [Option.some.injEq, List.cons.injEq] at h
  rw [hval, ← h.1] at he
  exact absurd he (by decide)

/-- C12 amended: for a buffer that begins with `42 4D` followed at offset 2 by
the little-endian 32-bit value `V` with `0 < V <= size`, the run with `bmp`
selected emits as its first object a bmp object starting at `0` with `end = V`
and sequence `0`. -/
theorem bmp_size_field_nonzero (data : List Byte) (V : Nat) (b0 b1 b2 b3 : Byte) (tail : List Byte)
    (hdata : data = 0x42 :: 0x4D :: b0 :: b1 :: b2 :: b3 :: tail)
    (hV : V = b0.toNat + 256 * b1.toNat + 65536 * b2.toNat + 16777216 * b3.toNat)
    (hpos : 0 < V) (hle : V ≤ data.length) :
    ∃ rest, extract_files_from_db data ["bmp"] = some (⟨0, 0, "bmp", V, 0⟩ :: rest) := by
  have hlen : 6 ≤ data.length := by rw [hdata]; simp
  have hocc : OccursAt data 0 [0x42, 0x4D] := by
    rw [hdata]
    exact OccursAt_at_zero ⟨b0 :: b1 :: b2 :: b3 :: tail, rfl⟩
  have hfind : find_next_signature data 0 ["bmp"] = (0, "bmp") :=
    find_next_signature_at_cursor data 0 _ "bmp" ⟨[0x42, 0x4D], []⟩ (by simp) (by decide) hocc
  have hread : read_u32 data (0 + 2) = V := by
    rw [hdata, hV]
    simp [read_u32]
  have hend : resolve_end data 0 "bmp" = V := by
    rw [resolve_end_bmp, hread, if_pos (by omega), if_pos ⟨hpos, by omega⟩]
    omega
  obtain ⟨rest, hrest⟩ := carve_loop_total data ["bmp"] data.length V
    (count_incr (fun _ => 0) "bmp") (by omega)
  refine ⟨rest, ?_⟩
  unfold extract_files_from_db
  rw [carve_loop_cycle _ _ _ 0 _ 0 "bmp" (by omega) hfind (by decide), hend, hrest]
  rfl

/-- C12 amended at the buffer `42 4D 07 00 00 00 11 22` (`V = 7`). -/
theorem bmp_size_field_nonzero_witness :
    ∃ rest, extract_files_from_db [0x42, 0x4D, 0x07, 0x00, 0x00, 0x00, 0x11, 0x22] ["bmp"] =
      some (⟨0, 0, "bmp", 7, 0⟩ :: rest) :=
  bmp_size_field_nonzero [0x42, 0x4D, 0x07, 0x00, 0x00, 0x00, 0x11, 0x22] 7 0x07 0x00 0x00 0x00 [0x11, 0x22]
    rfl (by decide) (by decide) (by decide)

/-- C13 (bmp fallback, refuted on the code): when fewer than 6 bytes are
available from the match, the resolved end is `start + 1`, not `start + 2`: on
`42 4D 00 00 00` the run emits the 1-byte object `[0, 1)`, and for the match at
offset `1` of `00 42 4D` the resolved end is `2`. -/
theorem bmp_short_tail_gives_one :
    extract_files_from_db [0x42, 0x4D, 0x00, 0x00, 0x00] ["bmp"] =
      some [⟨0, 0, "bmp", 1, 0⟩] ∧
    find_next_signature [0x00, 0x42, 0x4D] 0 ["bmp"] = (1, "bmp") ∧
    resolve_end [0x00, 0x42, 0x4D] 1 "bmp" = 1 + 1 := by
  decide

/-- C14 (jpg boundary rule): for a match at `start` inside the buffer, if `FF D9`
first occurs at or after `start` at `m` the resolved end is `m + 2`, and if it
occurs nowhere at or after `start` the resolved end is `start + 2`; and every jpg
object the run emits ends accordingly, the second case giving an object of
exactly 2 bytes. -/
theorem jpg_boundary_rule (data : List Byte) (formats : List String) :
    (∀ start, start ≤ data.length →
      (∀ m, start ≤ m → OccursAt data m [0xFF, 0xD9] →
        (∀ q, start ≤ q → q < m → ¬ OccursAt data q [0xFF, 0xD9]) →
        resolve_end data start "jpg" = m + 2) ∧
      ((∀ q, start ≤ q → ¬ OccursAt data q [0xFF, 0xD9]) →
        resolve_end data start "jpg" = start + 2)) ∧
    (∃ objs, extract_files_from_db data formats = some objs ∧
      ∀ c ∈ objs, c.fmt = "jpg" →
        (∀ m, c.start ≤ m → OccursAt data m [0xFF, 0xD9] →
          (∀ q, c.start ≤ q → q < m → ¬ OccursAt data q [0xFF, 0xD9]) → c.end_ = m + 2) ∧
        ((∀ q, c.start ≤ q → ¬ OccursAt data q [0xFF, 0xD9]) →
          c.end_ = c.start + 2 ∧ c.end_ - c.start = 2)) := by
  refine ⟨fun start hs => ⟨fun m hm ho hmin => resolve_end_jpg_found data start m hm ho hmin,
    fun hno => resolve_end_jpg_none data start hs hno⟩, ?_⟩
  obtain ⟨objs, he, hr⟩ := extract_files_from_db_run data formats
  refine ⟨objs, he, fun c hc hf => ?_⟩
  obtain ⟨_, h1, h2, h3⟩ := Run_cycle_facts hr c hc
  have hlt := (cycle_order h1 h2 h3).2.1
  rw [hf] at h3
  refine ⟨fun m hm ho hmin => ?_, fun hno => ?_⟩
  · rw [h3]; exact resolve_end_jpg_found data c.start m hm ho hmin
  · have := resolve_end_jpg_none data c.start (by omega) hno
    rw [h3, this]
    exact ⟨rfl, by omega⟩

/-- C14 at `FF D8 41 41` from offset `1` (no end marker) and at
`FF D8 41 FF D9 FF D9` from offset `0` (end marker first at `3`). -/
theorem jpg_boundary_rule_witness :
    resolve_end [0xFF, 0xD8, 0x41, 0x41] 1 "jpg" = 1 + 2 ∧
      resolve_end [0xFF, 0xD8, 0x41, 0xFF, 0xD9, 0xFF, 0xD9] 0 "jpg" = 3 + 2 :=
  ⟨((jpg_boundary_rule [0xFF, 0xD8, 0x41, 0x41] ["jpg"]).1 1 (by decide)).2
      (fun q _ => not_OccursAt_of_bounded (by simp) (by decide) q),
    ((jpg_boundary_rule [0xFF, 0xD8, 0x41, 0xFF, 0xD9, 0xFF, 0xD9] ["jpg"]).1 0
      (by decide)).1 3 (by decide) (by decide)
      (by intro q _ hq; interval_cases q <;> decide)⟩

/-- C15 (zip boundary rule): every zip object the run emits ends at the first
occurrence of the zip start marker at or after `start + 4`, and at the end of
the buffer when there is none; no zip start marker begins strictly inside it;
and a zip object with no zip object after it ends at the end of the buffer. -/
theorem zip_boundary_rule (data : List Byte) (formats : List String) :
    ∃ objs, extract_files_from_db data formats = some objs ∧
      (∀ c ∈ objs, c.fmt = "zip" →
        (∀ p, c.start + 4 ≤ p → OccursAt data p [0x50, 0x4B, 0x03, 0x04] →
          (∀ q, c.start + 4 ≤ q → q < p → ¬ OccursAt data q [0x50, 0x4B, 0x03, 0x04]) →
          c.end_ = p) ∧
        ((∀ q, c.start + 4 ≤ q → ¬ OccursAt data q [0x50, 0x4B, 0x03, 0x04]) →
          c.end_ = data.length) ∧
        (∀ q, c.start < q → q < c.end_ → ¬ OccursAt data q [0x50, 0x4B, 0x03, 0x04])) ∧
      (∀ (pre : List Cycle) (c : Cycle) (post : List Cycle), objs = pre ++ c :: post →
        c.fmt = "zip" → (∀ d ∈ post, d.fmt ≠ "zip") → c.end_ = data.length) := by
  obtain ⟨objs, he, hr⟩ := extract_files_from_db_run data formats
  refine ⟨objs, he, fun c hc hz => ?_, Run_last_zip hr⟩
  obtain ⟨_, h1, h2, h3⟩ := Run_cycle_facts hr c hc
  obtain ⟨_, sig, hs, hocc⟩ := cycle_match h1 h2
  rw [hz] at hs h3
  cases hs
  have hl := (OccursAt_length hocc (by simp)).1
  simp only [List.length_cons, List.length_nil] at hl
  rw [resolve_end_zip] at h3
  refine ⟨fun p hp ho hmin => ?_, fun hno => ?_, fun q hq1 hq2 => ?_⟩
  · rw [h3]; exact std_search_eq_of_first data _ _ p (by simp) hp ho hmin
  · rw [h3]; exact std_search_eq_length data _ _ hl hno
  · rcases Nat.lt_or_ge q (c.start + 4) with hq | hq
    · exact zip_no_overlap data c.start q hocc hq1 hq
    · exact std_search_min data (c.start + 4) _ q hq (by rw [← h3]; exact hq2)

/-- C16 as stated fails: in `tiff_sample` the tiff start marker is followed by
102398 bytes, fewer than 100 KiB, yet with `tiff` selected the first object is
`[0, 102400)`: exactly 102400 bytes, and not the whole remainder of the
102402-byte buffer.  So it is not true that a tiff object whose start marker
is followed by fewer than 102400 bytes is the whole remainder of the buffer
and has fewer than 102400 bytes. -/
theorem tiff_cap_window :
    tiff_sample.length = 4 + 102398 ∧
    (∃ rest, extract_files_from_db tiff_sample ["tiff"] =
      some (⟨0, 0, "tiff", 102400, 0⟩ :: rest)) ∧
    ¬ (∀ c rest, extract_files_from_db tiff_sample ["tiff"] = some (c :: rest) →
        c.fmt = "tiff" → tiff_sample.length < c.start + 4 + 102400 →
        c.end_ = tiff_sample.length ∧ c.end_ - c.start < 102400) := by
  have hlen := tiff_sample_length
  refine ⟨by rw [hlen], tiff_sample_run, fun hall => ?_⟩
  obtain ⟨rest, hrest⟩ := tiff_sample_run
  have h := (hall _ rest hrest rfl (by rw [hlen]; decide)).1
  rw [hlen] at h
  exact absurd h (by decide)

/-- C16 amended: every tiff object the run emits ends at
`min (start + 102400) size`; when at least 102400 bytes lie between `start` and
the end of the buffer (the start marker included) it has exactly 102400 bytes,
and otherwise it is the whole remainder of the buffer, fewer than 102400
bytes. -/
theorem tiff_cap_from_start (data : List Byte) (formats : List String) :
    TIFF_MAX_SIZE = 102400 ∧
    ∃ objs, extract_files_from_db data formats = some objs ∧
      ∀ c ∈ objs, c.fmt = "tiff" →
        c.end_ = min (c.start + 102400) data.length ∧
        (c.start + 102400 ≤ data.length → c.end_ - c.start = 102400) ∧
        (data.length < c.start + 102400 →
          c.end_ = data.length ∧ c.end_ - c.start < 102400) := by
  refine ⟨by decide, ?_⟩
  obtain ⟨objs, he, hr⟩ := extract_files_from_db_run data formats
  refine ⟨objs, he, fun c hc hf => ?_⟩
  obtain ⟨_, h1, h2, h3⟩ := Run_cycle_facts hr c hc
  have hlt := (cycle_order h1 h2 h3).2.1
  rw [hf, resolve_end_tiff] at h3
  refine ⟨h3, fun h => ?_, fun h => ?_⟩
  · rw [h3, Nat.min_eq_left h]; omega
  · rw [h3, Nat.min_eq_right (by omega)]; exact ⟨rfl, by omega⟩

/-- C17 (deterministic tie-break): two selections with the same members give
the same result of `find_next_signature`, in whatever order they are iterated;
and any selected catalog format whose start marker first occurs at the
returned position is the returned format itself, so the returned format is
least in the declared order among the formats tied at that position (catalog
start markers differ in their first byte, so no two distinct formats ever
tie). -/
theorem finder_tie_free (data : List Byte) (pos : Nat) (l1 l2 : List String)
    (h : ∀ f, f ∈ l1 ↔ f ∈ l2) :
    find_next_signature data pos l1 = find_next_signature data pos l2 ∧
    (∀ p f, find_next_signature data pos l1 = (p, f) → f ≠ "" →
      ∀ g ∈ l1, ∀ sg, FILE_SIGNATURES_find g = some sg → std_search data pos sg.start = p →
        g = f ∧ catalog_rank f ≤ catalog_rank g) := by
  constructor
  · rcases find_next_signature_spec data pos l1 with ⟨e1, a1⟩ | ⟨lt1, _, m1, s1, hs1, hp1, min1⟩
    · rcases find_next_signature_spec data pos l2 with ⟨e2, _⟩ | ⟨lt2, _, m2, s2, hs2, hp2, _⟩
      · rw [e1, e2]
      · have := a1 _ ((h _).mpr m2) s2 hs2
        omega
    · rcases find_next_signature_spec data pos l2 with ⟨_, a2⟩ | ⟨lt2, _, m2, s2, hs2, hp2, min2⟩
      · have := a2 _ ((h _).mp m1) s1 hs1
        omega
      · have h12 := min1 _ ((h _).mpr m2) s2 hs2
        have h21 := min2 _ ((h _).mp m1) s1 hs1
        have hp : (find_next_signature data pos l1).1 = (find_next_signature data pos l2).1 := by
          omega
        have o1 : OccursAt data (find_next_signature data pos l1).1 s1.start := by
          rw [hp1]; exact std_search_occurs data pos _ (by omega)
        have o2 : OccursAt data (find_next_signature data pos l1).1 s2.start := by
          rw [hp, hp2]; exact std_search_occurs data pos _ (by omega)
        exact Prod.ext hp (catalog_unique_at hs1 hs2 o1 o2)
  · intro p f hpf hf g hg sg hsg hsp
    rcases find_next_signature_spec data pos l1 with ⟨e1, _⟩ | ⟨lt1, _, m1, s1, hs1, hp1, _⟩
    · rw [e1] at hpf
      cases hpf
      exact absurd rfl hf
    · rw [hpf] at lt1 hs1 hp1
      simp only at lt1 hs1 hp1
      have o1 : OccursAt data p s1.start := by
        rw [hp1]; exact std_search_occurs data pos _ (by omega)
      have o2 : OccursAt data p sg.start := by
        rw [← hsp]; exact std_search_occurs data pos _ (by omega)
      have hgf := catalog_unique_at hsg hs1 o2 o1
      exact ⟨hgf, by rw [hgf]⟩

/-- C17 at the buffer `00 89 FF D8`, cursor `0`, for the selection
`jpg, png` iterated in two different orders. -/
theorem finder_tie_free_witness :
    find_next_signature [0x00, 0x89, 0xFF, 0xD8] 0 ["jpg", "png"] =
      find_next_signature [0x00, 0x89, 0xFF, 0xD8] 0 ["png", "jpg", "jpg"] :=
  (finder_tie_free [0x00, 0x89, 0xFF, 0xD8] 0 ["jpg", "png"] ["png", "jpg", "jpg"] (by
    intro f; simp only [List.mem_cons, List.mem_singleton, List.not_mem_nil, or_false]; tauto)).1

/-- C18 (GIF89a, refuted on the code): on the buffer `GIF89a` followed by
`01 00 3B`, where the six bytes `47 49 46 38 39 61` occur at `0`, the finder with
`gif` selected returns the no-match result and the run emits nothing. -/
theorem gif89a_not_matched :
    OccursAt [0x47, 0x49, 0x46, 0x38, 0x39, 0x61, 0x01, 0x00, 0x3B] 0
      [0x47, 0x49, 0x46, 0x38, 0x39, 0x61] ∧
    find_next_signature [0x47, 0x49, 0x46, 0x38, 0x39, 0x61, 0x01, 0x00, 0x3B] 0 ["gif"] =
      (9, "") ∧
    extract_files_from_db [0x47, 0x49, 0x46, 0x38, 0x39, 0x61, 0x01, 0x00, 0x3B] ["gif"] =
      some [] := by
  decide

/-- C19 (big-endian tiff, refuted on the code): on the buffer
`4D 4D 00 2A 00 00 00 08`, where the four bytes `4D 4D 00 2A` occur at `0`, the
finder with `tiff` selected returns the no-match result and the run emits
nothing. -/
theorem tiff_big_endian_not_matched :
    OccursAt [0x4D, 0x4D, 0x00, 0x2A, 0x00, 0x00, 0x00, 0x08] 0 [0x4D, 0x4D, 0x00, 0x2A] ∧
    find_next_signature [0x4D, 0x4D, 0x00, 0x2A, 0x00, 0x00, 0x00, 0x08] 0 ["tiff"] =
      (8, "") ∧
    extract_files_from_db [0x4D, 0x4D, 0x00, 0x2A, 0x00, 0x00, 0x00, 0x08] ["tiff"] =
      some [] := by
  decide

/-- C20 (containment for five formats): every object the run emits whose format
is jpg, gif, bmp, tiff or zip has `start < end <= size`. -/
theorem five_formats_inside_buffer (data : List Byte) (formats : List String) :
    ∃ objs, extract_files_from_db data formats = some objs ∧
      ∀ c ∈ objs, c.fmt ∈ ["jpg", "gif", "bmp", "tiff", "zip"] →
        c.start < c.end_ ∧ c.end_ ≤ data.length := by
  obtain ⟨objs, he, hr⟩ := extract_files_from_db_run data formats
  refine ⟨objs, he, fun c hc hf => ?_⟩
  obtain ⟨_, h1, h2, h3⟩ := Run_cycle_facts hr c hc
  obtain ⟨_, sig, hs, ho⟩ := cycle_match h1 h2
  refine ⟨(cycle_order h1 h2 h3).2.2, ?_⟩
  rw [h3]
  exact resolve_end_le_five data c.start c.fmt sig hs ho hf

end DBexT
